import Mathlib

/-!
Verification development for the `Money` monetary value type
(`src/suite_trading/domain/monetary/money.py`).

The source code stores amounts as Python `Decimal` values under a decimal
context with `prec = 28` significant digits and the default rounding mode
`ROUND_HALF_EVEN`.  We embed a finite `Decimal` as an integer coefficient
together with a power-of-ten exponent (`Dec`), and model the context
behaviour explicitly:

* every arithmetic operation (`+`, `-`, `*`, `/`) rounds its exact result
  to at most 28 significant digits, half to even (`fix28`);
* `Decimal.quantize` raises `InvalidOperation` when the coefficient of the
  quantized result would be longer than 28 digits;
* string conversion follows `decimal.Decimal.__str__` and the `Decimal`
  literal grammar (ASCII digits; special values `NaN` / `Infinity` are
  modelled by `PDec`; a signed zero coefficient is not distinguished,
  which is invisible to every numeric comparison used by the source).

The external `Currency` class is not part of the analysed source; it is
modelled from the spec where needed (code string + non-negative precision,
equality by code, and a lookup of known currencies for parsing).
-/

/-- Length of the decimal-digit string of `n` (as Python's `len(str(n))` for
a non-negative `n`), via fuel recursion so that it reduces in the kernel. -/
def digLenF : Nat → Nat → Nat
  | 0, _ => 0
  | f+1, n => if n < 10 then 1 else 1 + digLenF f (n / 10)

/-- Number of decimal digits of `n`; `digLen 0 = 1`. -/
def digLen (n : Nat) : Nat := digLenF (n+1) n

/-- Round the quotient `a / b` (for `b > 0`) to the nearest integer, ties to
even — the integer-level kernel of `ROUND_HALF_EVEN`. -/
def roundHalfEvenDiv (a b : Int) : Int :=
  if 2 * (a % b) < b then a / b
  else if b < 2 * (a % b) then a / b + 1
  else if (a / b) % 2 = 0 then a / b else a / b + 1

/-- Specification-side rounding of a rational to the nearest integer with
ties to even, phrased through `Int.floor` (independent of the integer
division used by the implementation-level `roundHalfEvenDiv`). -/
def specRound (q : ℚ) : Int :=
  if q - ⌊q⌋ < 1/2 then ⌊q⌋
  else if (1 : ℚ)/2 < q - ⌊q⌋ then ⌊q⌋ + 1
  else if ⌊q⌋ % 2 = 0 then ⌊q⌋ else ⌊q⌋ + 1

/-- A finite Python `Decimal`: the value `c * 10 ^ e`.  The sign lives in the
coefficient; a negatively signed zero is identified with zero (numerically
faithful: every comparison the source performs on `Decimal` is numeric). -/
structure Dec where
  c : Int
  e : Int
deriving DecidableEq, Repr

/-- The rational value of a finite decimal. -/
def Dec.toRat (d : Dec) : ℚ := (d.c : ℚ) * (10 : ℚ) ^ d.e

/-- Coefficient of `d` rescaled to the (smaller or equal) exponent `e`. -/
def scaleTo (d : Dec) (e : Int) : Int := d.c * 10 ^ (d.e - e).toNat

/-- Numeric `<` on finite decimals (`Decimal.__lt__`). -/
def dLtB (a b : Dec) : Bool :=
  let e := min a.e b.e
  decide (scaleTo a e < scaleTo b e)

/-- Numeric equality on finite decimals (`Decimal.__eq__`). -/
def dEqB (a b : Dec) : Bool :=
  let e := min a.e b.e
  decide (scaleTo a e = scaleTo b e)

/-- Python decimal context rounding (`Decimal._fix` with `prec = 28` and
`ROUND_HALF_EVEN`): a coefficient longer than 28 digits is rounded back to
28 digits, and a carry that produces a 29-digit power of ten is shortened
once more.  Exponent-limit clauses of `_fix` (`Emin`/`Emax`) are vacuous at
the magnitudes reachable from this program and are omitted. -/
def fix28 (d : Dec) : Dec :=
  let L := digLen d.c.natAbs
  if L ≤ 28 then d
  else
    let k := L - 28
    let c' := roundHalfEvenDiv d.c (10 ^ k)
    if digLen c'.natAbs ≤ 28 then ⟨c', d.e + k⟩
    else ⟨c' / 10, d.e + k + 1⟩

/-- `Decimal.__add__` on finite operands: the exact aligned sum, rounded to
the context precision.  (CPython truncates a far smaller operand before
adding, a transformation engineered to leave the correctly rounded result
unchanged, so the exact-sum-then-round model is value-faithful.) -/
def decAdd (d1 d2 : Dec) : Dec :=
  let e := min d1.e d2.e
  fix28 ⟨scaleTo d1 e + scaleTo d2 e, e⟩

/-- `Decimal.__sub__` on finite operands: add the negated operand. -/
def decSub (d1 d2 : Dec) : Dec := decAdd d1 ⟨-d2.c, d2.e⟩

/-- `Decimal.__mul__` on finite operands: exact product, context-rounded. -/
def decMul (d1 d2 : Dec) : Dec := fix28 ⟨d1.c * d2.c, d1.e + d2.e⟩

/-- `Decimal.__neg__`: negate, then `_fix` (identity below 29 digits). -/
def decNeg (d : Dec) : Dec := fix28 ⟨-d.c, d.e⟩

/-- `Decimal.__abs__`: absolute value, then `_fix`. -/
def decAbsD (d : Dec) : Dec := fix28 ⟨(d.c.natAbs : Int), d.e⟩

/-- Fuel-based trailing-zero stripping used by exact division results
(`while exp < ideal_exp and coeff % 10 == 0` in `_pydecimal`). -/
def stripZerosF : Nat → Nat → Int → Nat × Int
  | 0, q, e => (q, e)
  | f+1, q, e => if q % 10 = 0 then stripZerosF f (q / 10) (e + 1) else (q, e)

/-- `Decimal.__truediv__` on finite operands with a nonzero divisor,
following `_pydecimal`: compute `prec + 1` quotient digits, nudge an inexact
quotient off multiples of five so that the final `_fix` rounds correctly,
or strip an exact quotient back towards the ideal exponent. -/
def decDiv (d1 d2 : Dec) : Dec :=
  let na := d1.c.natAbs
  let nb := d2.c.natAbs
  let neg : Bool := decide (d1.c < 0) != decide (d2.c < 0)
  let shift : Int := (digLen nb : Int) - (digLen na : Int) + 29
  let q : Nat := if 0 ≤ shift then (na * 10 ^ shift.toNat) / nb else na / (nb * 10 ^ (-shift).toNat)
  let r : Nat := if 0 ≤ shift then (na * 10 ^ shift.toNat) % nb else na % (nb * 10 ^ (-shift).toNat)
  let exp := d1.e - d2.e - shift
  if r ≠ 0 then
    let q' := if q % 5 = 0 then q + 1 else q
    fix28 ⟨if neg then -(q' : Int) else (q' : Int), exp⟩
  else
    let ideal := d1.e - d2.e
    let p := stripZerosF (ideal - exp).toNat q exp
    fix28 ⟨if neg then -(p.1 : Int) else (p.1 : Int), p.2⟩

/-- A parsed Python `Decimal`: finite number, `NaN` (quiet or signalling —
indistinguishable to this program, whose first operation on any value is a
signalling comparison), or a signed infinity. -/
inductive PDec where
  | fin (d : Dec)
  | nan
  | inf (neg : Bool)
deriving DecidableEq, Repr

/-- Error outcomes of the embedded operations, one constructor per kind of
Python exception the source can raise.  `rangeMax`/`rangeMin` are the two
`ValueError`s of the range check, `currencyMismatch` the `ValueError` of
`_check_same_currency`, `formatErr` the `ValueError`s raised by `from_str`
itself, `invalidOp` an uncaught `decimal.InvalidOperation`, and `zeroDiv` a
`ZeroDivisionError`. -/
inductive Err where
  | invalidOp
  | rangeMax
  | rangeMin
  | currencyMismatch
  | zeroDiv
  | formatErr
deriving DecidableEq, Repr

/-- Which errors are Python `ValueError`s (or `TypeError`s) — exactly the
classes caught by the `except (ValueError, TypeError)` guards of the scalar
operator paths.  `InvalidOperation` is an `ArithmeticError` and
`ZeroDivisionError` is neither, so both escape those guards. -/
def errCaught : Err → Bool
  | .rangeMax => true
  | .rangeMin => true
  | .currencyMismatch => true
  | .formatErr => true
  | .invalidOp => false
  | .zeroDiv => false

/-- `Decimal.quantize` to exponent `-p` under the context `prec = 28`,
`ROUND_HALF_EVEN`: rescale or round the coefficient, then signal
`InvalidOperation` if the resulting coefficient is longer than 28 digits.
(`Money.__init__` builds the target `Decimal("0.00…0")`/`Decimal("1")` from
`currency.precision`, so the target exponent is exactly `-precision`.) -/
def pyQuantize (d : Dec) (p : Nat) : Except Err Dec :=
  let E : Int := -(p : Int)
  if E ≤ d.e then
    let c' := d.c * 10 ^ (d.e - E).toNat
    if digLen c'.natAbs ≤ 28 then .ok ⟨c', E⟩ else .error .invalidOp
  else
    let c' := roundHalfEvenDiv d.c (10 ^ (E - d.e).toNat)
    if digLen c'.natAbs ≤ 28 then .ok ⟨c', E⟩ else .error .invalidOp

/-- `Money.MAX_VALUE = Decimal("999999999999.999999999999999999")`. -/
def maxValue : Dec := ⟨999999999999999999999999999999, -18⟩

/-- `Money.MIN_VALUE = Decimal("-999999999999.999999999999999999")`. -/
def minValue : Dec := ⟨-999999999999999999999999999999, -18⟩

/-- `MIN_VALUE ≤ d ≤ MAX_VALUE`, phrased with the two comparisons the
constructor performs. -/
def inRangeB (d : Dec) : Bool := !dLtB maxValue d && !dLtB d minValue

/-- Modelled from the spec: the external `Currency` descriptor (its class is
not part of the analysed source).  Spec §3/§6: a `code` string and a
non-negative integer `precision`; two currencies are equal by code. -/
structure Currency where
  code : String
  precision : Nat
deriving DecidableEq, Repr

/-- Modelled from the spec: currency equality, "equal (by code)" (spec §3). -/
def curEqB (a b : Currency) : Bool := a.code == b.code

/-- Modelled from the spec: the known currencies available to the parser's
lookup (`resolve(code) -> Currency`, spec §6). -/
def registry : List Currency :=
  [⟨"USD", 2⟩, ⟨"EUR", 2⟩, ⟨"GBP", 2⟩, ⟨"JPY", 0⟩, ⟨"BTC", 8⟩]

/-- Modelled from the spec: `Currency.from_str` — look a code up among the
known currencies; unknown codes fail (with a `ValueError`, which
`Money.from_str` catches and wraps). -/
def resolveCur (code : String) : Option Currency :=
  registry.find? (fun c => c.code == code)

/-- The `Money` value type: a stored decimal amount plus its currency. -/
structure Money where
  value : Dec
  currency : Currency
deriving DecidableEq, Repr

/-- `Money.__init__` once the input value has been converted to a `Decimal`:
range-check the unrounded value (`> MAX_VALUE` first, then `< MIN_VALUE`),
then quantize to the currency precision.  A non-finite `Decimal` makes the
very first comparison signal: `NaN > MAX_VALUE` raises `InvalidOperation`
(the trap is enabled by default), `+Infinity > MAX_VALUE` is true and
`-Infinity < MIN_VALUE` is true. -/
def constructCore (d : Dec) (p : Nat) : Except Err Dec :=
  if dLtB maxValue d then .error .rangeMax
  else if dLtB d minValue then .error .rangeMin
  else pyQuantize d p

/-- Attach the currency to the checked-and-quantized value. -/
def constructPD (v : PDec) (cur : Currency) : Except Err Money :=
  match v with
  | .nan => .error .invalidOp
  | .inf false => .error .rangeMax
  | .inf true => .error .rangeMin
  | .fin d =>
    match constructCore d cur.precision with
    | .ok q => .ok ⟨q, cur⟩
    | .error e => .error e

/-- USD with the standard two fractional digits, as used by the examples. -/
def usd : Currency := ⟨"USD", 2⟩

example : constructPD (.fin ⟨1005, -3⟩) usd = .ok ⟨⟨100, -2⟩, usd⟩ := by rfl

example : constructPD (.fin maxValue) usd = .ok ⟨⟨100000000000000, -2⟩, usd⟩ := by rfl

example : constructPD (.fin maxValue) ⟨"XAG", 18⟩ = .error .invalidOp := by rfl

example : constructPD (.fin ⟨1000000000000000000000000000000, -18⟩) usd = .error .rangeMax := by rfl

example : decDiv ⟨1000, -2⟩ ⟨200, -2⟩ = ⟨5, 0⟩ := by rfl

example : decAdd ⟨99999999999900, -2⟩ ⟨1, 0⟩ = ⟨100000000000000, -2⟩ := by rfl

/-- Outcome of a binary arithmetic dunder: a new `Money`, a raised error, or
Python's `NotImplemented` sentinel (returned to the interpreter, which then
tries the reflected operation and ultimately raises an operand `TypeError`). -/
inductive MRes where
  | ok (m : Money)
  | err (e : Err)
  | notImpl
deriving DecidableEq, Repr

/-- The `try: return Money(...) except (ValueError, TypeError): return
NotImplemented` pattern of every scalar operand path: `ValueError`s (which
include the range-check failures) become `NotImplemented`, while
`InvalidOperation` and `ZeroDivisionError` escape. -/
def wrapScalar (r : Except Err Money) : MRes :=
  match r with
  | .ok m => .ok m
  | .error e => if errCaught e then .notImpl else .err e

/-- Propagate constructor errors unchanged (the `Money`-operand paths have
no `try` guard). -/
def liftE (r : Except Err Money) : MRes :=
  match r with
  | .ok m => .ok m
  | .error e => .err e

/-- `Money.__add__` with a `Money` operand: check currencies, then rebuild
from the context-rounded sum. -/
def addMM (a b : Money) : MRes :=
  if curEqB a.currency b.currency then
    liftE (constructPD (.fin (decAdd a.value b.value)) a.currency)
  else .err .currencyMismatch

/-- `Money.__add__` (and `__radd__`, which delegates to it) with a plain
number operand, already converted by `Decimal(str(other))` — exact for every
finite int/float. -/
def addMS (a : Money) (k : Dec) : MRes :=
  wrapScalar (constructPD (.fin (decAdd a.value k)) a.currency)

/-- `Money.__sub__` with a `Money` operand. -/
def subMM (a b : Money) : MRes :=
  if curEqB a.currency b.currency then
    liftE (constructPD (.fin (decSub a.value b.value)) a.currency)
  else .err .currencyMismatch

/-- `Money.__sub__` with a plain number operand. -/
def subMS (a : Money) (k : Dec) : MRes :=
  wrapScalar (constructPD (.fin (decSub a.value k)) a.currency)

/-- `Money.__rsub__`: number minus amount, currency taken from the amount. -/
def rsubMS (a : Money) (k : Dec) : MRes :=
  wrapScalar (constructPD (.fin (decSub k a.value)) a.currency)

/-- `Money.__mul__` with a plain number operand (a `Money` operand would
yield `NotImplemented`). -/
def mulMS (a : Money) (k : Dec) : MRes :=
  wrapScalar (constructPD (.fin (decMul a.value k)) a.currency)

/-- `Money.__rmul__`: delegates verbatim to `__mul__`. -/
def mulSM (k : Dec) (a : Money) : MRes := mulMS a k

/-- `Money.__truediv__` with a `Money` operand: same currency required, a
zero divisor raises `ZeroDivisionError`, and the result is the dimensionless
`Decimal` ratio — not a `Money`. -/
def divMM (a b : Money) : Except Err Dec :=
  if curEqB a.currency b.currency then
    if dEqB b.value ⟨0, 0⟩ then .error .zeroDiv
    else .ok (decDiv a.value b.value)
  else .error .currencyMismatch

/-- `Money.__truediv__` with a plain number operand: a zero divisor raises
`ZeroDivisionError` (inside the `try`, but not a `ValueError`, so it
escapes); otherwise the quotient is rebuilt as `Money` under the scalar
guard. -/
def divMS (a : Money) (k : Dec) : MRes :=
  if dEqB k ⟨0, 0⟩ then .err .zeroDiv
  else wrapScalar (constructPD (.fin (decDiv a.value k)) a.currency)

/-- `Money.__neg__`: rebuild from the negated value (no `try` guard). -/
def negM (m : Money) : Except Err Money :=
  constructPD (.fin (decNeg m.value)) m.currency

/-- `Money.__pos__`: rebuild from the value unchanged. -/
def posM (m : Money) : Except Err Money :=
  constructPD (.fin m.value) m.currency

/-- `Money.__abs__`: rebuild from the absolute value. -/
def absM (m : Money) : Except Err Money :=
  constructPD (.fin (decAbsD m.value)) m.currency

/-- `Money.__eq__` against another `Money`: false on different currencies,
else numeric equality of the stored values. -/
def eqM (a b : Money) : Bool :=
  curEqB a.currency b.currency && dEqB a.value b.value

/-- An operand of `Money.__eq__`: either another `Money` or any non-`Money`
value (whose content the method never inspects). -/
inductive PyOperand where
  | money (m : Money)
  | nonMoney
deriving DecidableEq, Repr

/-- `Money.__eq__` in full: `isinstance` guard first, so any non-`Money`
operand yields `False` without raising. -/
def eqOp (a : Money) : PyOperand → Bool
  | .money b => eqM a b
  | .nonMoney => false

/-- `Money.__lt__` against another `Money`: `_check_same_currency` raises a
`ValueError` on mismatch, else numeric comparison. -/
def ltM (a b : Money) : Except Err Bool :=
  if curEqB a.currency b.currency then .ok (dLtB a.value b.value)
  else .error .currencyMismatch

/-- `Money.__le__` against another `Money`. -/
def leM (a b : Money) : Except Err Bool :=
  if curEqB a.currency b.currency then .ok (!dLtB b.value a.value)
  else .error .currencyMismatch

/-- `Money.__gt__` against another `Money`. -/
def gtM (a b : Money) : Except Err Bool :=
  if curEqB a.currency b.currency then .ok (dLtB b.value a.value)
  else .error .currencyMismatch

/-- `Money.__ge__` against another `Money`. -/
def geM (a b : Money) : Except Err Bool :=
  if curEqB a.currency b.currency then .ok (!dLtB a.value b.value)
  else .error .currencyMismatch

/-- The character of a decimal digit value. -/
def digChar (d : Nat) : Char := Char.ofNat (48 + d)

/-- ASCII decimal digit test (`0`–`9`). -/
def isDig (ch : Char) : Bool := 48 ≤ ch.toNat && ch.toNat ≤ 57

/-- Value of an ASCII digit character. -/
def digVal (ch : Char) : Nat := ch.toNat - 48

/-- Whitespace, as recognised by `str.strip` / `str.split` (ASCII scope of
this model: space, tab, newline, carriage return, vertical tab, form feed). -/
def isWs (ch : Char) : Bool :=
  ch = ' ' || ch = '\t' || ch = '\n' || ch = '\r' || ch.toNat = 11 || ch.toNat = 12

/-- ASCII lower-casing, for the case-insensitive special-value words. -/
def lowerCh (ch : Char) : Char :=
  if 65 ≤ ch.toNat && ch.toNat ≤ 90 then Char.ofNat (ch.toNat + 32) else ch

/-- Little-endian decimal digits of `n` (empty for `0`), with fuel. -/
def digitsF : Nat → Nat → List Nat
  | 0, _ => []
  | f+1, n => if n = 0 then [] else n % 10 :: digitsF f (n / 10)

/-- Big-endian digit values of `n`, with `0` rendered as `[0]` — the digit
string of `str(n)`. -/
def coeffDigs (n : Nat) : List Nat :=
  if n = 0 then [0] else (digitsF n n).reverse

/-- Value of a big-endian digit list (how the parser reassembles digits). -/
def ofD (l : List Nat) : Nat := l.foldl (fun a d => 10 * a + d) 0

/-- Render a digit-value list as characters. -/
def mapD (l : List Nat) : List Char := l.map digChar

/-- Digit characters of a signed exponent, Python's `'%+d'`: an explicit
`+`/`-` sign followed by the decimal digits. -/
def intSignedChars (k : Int) : List Char :=
  (if k < 0 then ['-'] else ['+']) ++ mapD (coeffDigs k.natAbs)

/-- `decimal.Decimal.__str__` for a finite value (CPython `_pydecimal`):
place the decimal point at `leftdigits = exp + len(digits)` when the
exponent is at most zero and the adjusted exponent is at least `-6`,
otherwise use scientific notation with one leading digit and an explicit
`E%+d` exponent. -/
def decToChars (d : Dec) : List Char :=
  let L := coeffDigs d.c.natAbs
  let len : Int := L.length
  let left : Int := d.e + len
  let dot : Int := if d.e ≤ 0 ∧ -6 < left then left else 1
  let mant : List Char :=
    if dot ≤ 0 then '0' :: '.' :: (List.replicate (-dot).toNat '0' ++ mapD L)
    else if len ≤ dot then mapD L ++ List.replicate (dot - len).toNat '0'
    else mapD (L.take dot.toNat) ++ '.' :: mapD (L.drop dot.toNat)
  let ex : List Char := if left = dot then [] else 'E' :: intSignedChars (left - dot)
  (if d.c < 0 then ['-'] else []) ++ mant ++ ex

/-- Take the longest ASCII-digit run off the front of a character list,
returning the digit values and the rest. -/
def takeDigs : List Char → List Nat × List Char
  | [] => ([], [])
  | ch :: cs =>
    if isDig ch then
      let p := takeDigs cs
      (digVal ch :: p.1, p.2)
    else ([], ch :: cs)

/-- Strip one optional leading sign, reporting whether it was `-`. -/
def readSign : List Char → Bool × List Char
  | ch :: cs => if ch = '-' then (true, cs) else if ch = '+' then (false, cs) else (false, ch :: cs)
  | [] => (false, [])

/-- Case-insensitive match of the `Infinity` special-value words. -/
def isInfWord (l : List Char) : Bool :=
  let w := l.map lowerCh
  w = ['i', 'n', 'f'] || w = ['i', 'n', 'f', 'i', 'n', 'i', 't', 'y']

/-- Case-insensitive match of `NaN` / `sNaN`, with an optional digit
payload, as in the `Decimal` literal grammar. -/
def isNanWord (l : List Char) : Bool :=
  match l.map lowerCh with
  | 'n' :: 'a' :: 'n' :: rest => rest.all isDig
  | 's' :: 'n' :: 'a' :: 'n' :: rest => rest.all isDig
  | _ => false

/-- Assemble a parsed finite literal: integer digits, fraction digits and
exponent give coefficient `±(digits)` at exponent `exp - len(frac)`. -/
def finishNum (neg : Bool) (I F : List Nat) (k : Int) : Option PDec :=
  let n : Int := (ofD (I ++ F) : Int)
  some (.fin ⟨if neg then -n else n, k - F.length⟩)

/-- Parse the mantissa-and-exponent part of a finite `Decimal` literal:
`digits [. digits] [ (e|E) [sign] digits ]`, requiring at least one mantissa
digit and no trailing characters. -/
def parseTail (neg : Bool) (I F : List Nat) : List Char → Option PDec
  | [] => if I.isEmpty && F.isEmpty then none else finishNum neg I F 0
  | ch :: cs =>
    if I.isEmpty && F.isEmpty then none
    else if ch = 'e' || ch = 'E' then
      let s := readSign cs
      let p := takeDigs s.2
      if p.1.isEmpty || !p.2.isEmpty then none
      else finishNum neg I F (if s.1 then -(ofD p.1 : Int) else (ofD p.1 : Int))
    else none

/-- Parse a whitespace-free, underscore-free `Decimal` literal: optional
sign, then either a special-value word or a finite numeric literal. -/
def parsePD (l : List Char) : Option PDec :=
  let s := readSign l
  if isInfWord s.2 then some (.inf s.1)
  else if isNanWord s.2 then some .nan
  else
    let ip := takeDigs s.2
    match ip.2 with
    | '.' :: cs =>
      let fp := takeDigs cs
      parseTail s.1 ip.1 fp.1 fp.2
    | rest => parseTail s.1 ip.1 [] rest

/-- Python `str.strip` on a character list. -/
def pyStrip (l : List Char) : List Char :=
  ((l.dropWhile isWs).reverse.dropWhile isWs).reverse

/-- Worker for `str.split()` with no separator: runs of whitespace delimit
tokens; `acc` holds the (reversed) token being read. -/
def splitWsAux : List Char → List Char → List (List Char)
  | [], acc => if acc.isEmpty then [] else [acc.reverse]
  | ch :: cs, acc =>
    if isWs ch then
      if acc.isEmpty then splitWsAux cs [] else acc.reverse :: splitWsAux cs []
    else splitWsAux cs (ch :: acc)

/-- Python `str.split()` (no separator) on a character list. -/
def pySplit (l : List Char) : List (List Char) := splitWsAux l []

/-- `decimal.Decimal(s)` for a string input: CPython strips surrounding
whitespace, deletes every underscore, and applies the literal grammar; any
failure signals `InvalidOperation`. -/
def decOfChars (l : List Char) : Option PDec :=
  parsePD ((pyStrip l).filter (fun ch => ch ≠ '_'))

/-- The value argument of `Money.__init__`: either an already-exact decimal
(a `Decimal`, or an int/float taken through `Decimal(str(value))`, which is
exact for every finite number) or an arbitrary string. -/
inductive MoneyInput where
  | dec (v : PDec)
  | str (s : String)

/-- `Money.__init__`: convert the value (`Decimal(str(value))` for
non-`Decimal` inputs — for a failing string this raises
`decimal.InvalidOperation`, which the `except (ValueError, TypeError)`
clause does NOT catch), then range-check and quantize via `constructPD`. -/
def constructVal : MoneyInput → Currency → Except Err Money
  | .dec v, cur => constructPD v cur
  | .str s, cur =>
    match decOfChars s.data with
    | some v => constructPD v cur
    | none => .error .invalidOp

/-- `Money.__str__`: `f"{self.value} {self.currency.code}"`. -/
def moneyStr (m : Money) : String :=
  String.mk (decToChars m.value ++ ' ' :: m.currency.code.data)

/-- `Money.from_str`: strip, reject empty, split on whitespace into exactly
two tokens, parse the value token as a `Decimal` (here `InvalidOperation`
IS caught and re-raised as a `ValueError`), resolve the currency code
(lookup failure wrapped as a `ValueError`), then construct. -/
def fromStr (s : String) : Except Err Money :=
  match pyStrip s.data with
  | [] => .error .formatErr
  | l =>
    match pySplit l with
    | [v, c] =>
      match decOfChars v with
      | none => .error .formatErr
      | some pd =>
        match resolveCur (String.mk c) with
        | none => .error .formatErr
        | some cur => constructPD pd cur
    | _ => .error .formatErr

example : decToChars ⟨123456, -2⟩ = ['1', '2', '3', '4', '.', '5', '6'] := by rfl
example : decToChars ⟨-5, -8⟩ = ['-', '5', 'E', '-', '8'] := by rfl
example : decToChars ⟨0, -2⟩ = ['0', '.', '0', '0'] := by rfl
example : decToChars ⟨15, -8⟩ = ['1', '.', '5', 'E', '-', '7'] := by rfl
example : decToChars ⟨100, 0⟩ = ['1', '0', '0'] := by rfl
example : parsePD "1234.56".data = some (.fin ⟨123456, -2⟩) := by rfl
example : parsePD "-5E-8".data = some (.fin ⟨-5, -8⟩) := by rfl
example : parsePD "0.00".data = some (.fin ⟨0, -2⟩) := by rfl
example : parsePD "abc".data = none := by rfl
example : parsePD "nan".data = some .nan := by rfl
example : parsePD "-Infinity".data = some (.inf true) := by rfl
example : parsePD "1_0.5".data = none := by rfl
example : decOfChars "1_0.5".data = some (.fin ⟨105, -1⟩) := by rfl
example : fromStr "1234.56 USD" = .ok ⟨⟨123456, -2⟩, usd⟩ := by rfl
example : fromStr "10.50 ZZZ" = .error .formatErr := by rfl
example : fromStr "" = .error .formatErr := by rfl
example : fromStr "10.50USD" = .error .formatErr := by rfl
example : moneyStr ⟨⟨123456, -2⟩, usd⟩ = "1234.56 USD" := by rfl
example : fromStr (moneyStr ⟨⟨100000000000000, -2⟩, usd⟩) = .error .rangeMax := by rfl

theorem floor_intCast_div (a b : Int) (hb : 0 < b) :
    ⌊(a : ℚ) / (b : ℚ)⌋ = a / b := by
  have hb0 : b ≠ 0 := ne_of_gt hb
  have hbq : (0 : ℚ) < (b : ℚ) := by exact_mod_cast hb
  have hdecomp : b * (a / b) + a % b = a := Int.ediv_add_emod a b
  have hr0 : 0 ≤ a % b := Int.emod_nonneg a hb0
  have hrb : a % b < b := Int.emod_lt_of_pos a hb
  rw [Int.floor_eq_iff]
  constructor
  · rw [le_div_iff₀ hbq]
    have key : (a / b) * b ≤ a := by nlinarith [hdecomp, hr0]
    exact_mod_cast key
  · rw [div_lt_iff₀ hbq]
    have hcast : ((a / b : Int) : ℚ) + 1 = (((a / b) + 1 : Int) : ℚ) := by push_cast; ring
    rw [hcast]
    have key : a < ((a / b) + 1) * b := by nlinarith [hdecomp, hrb]
    exact_mod_cast key

theorem roundHalfEvenDiv_eq_specRound (a b : Int) (hb : 0 < b) :
    roundHalfEvenDiv a b = specRound ((a : ℚ) / (b : ℚ)) := by
  have hbq : (0 : ℚ) < (b : ℚ) := by exact_mod_cast hb
  have hdecomp : b * (a / b) + a % b = a := Int.ediv_add_emod a b
  have hfl : ⌊(a : ℚ) / (b : ℚ)⌋ = a / b := floor_intCast_div a b hb
  have frac_eq : (a : ℚ) / (b : ℚ) - ((a / b : Int) : ℚ) = ((a % b : Int) : ℚ) / (b : ℚ) := by
    rw [eq_div_iff (ne_of_gt hbq), sub_mul, div_mul_cancel₀ _ (ne_of_gt hbq)]
    exact_mod_cast (by nlinarith [hdecomp] : (a : Int) - (a / b) * b = a % b)
  have h1 : (((a % b : Int) : ℚ) / (b : ℚ) < 1/2) ↔ (2 * (a % b) < b) := by
    rw [div_lt_div_iff hbq two_pos,
        show ((a % b : Int) : ℚ) * 2 = ((2 * (a % b) : Int) : ℚ) by push_cast; ring,
        show (1 : ℚ) * (b : ℚ) = ((b : Int) : ℚ) by push_cast; ring]
    exact Int.cast_lt
  have h2 : ((1 : ℚ)/2 < ((a % b : Int) : ℚ) / (b : ℚ)) ↔ (b < 2 * (a % b)) := by
    rw [div_lt_div_iff two_pos hbq,
        show ((a % b : Int) : ℚ) * 2 = ((2 * (a % b) : Int) : ℚ) by push_cast; ring,
        show (1 : ℚ) * (b : ℚ) = ((b : Int) : ℚ) by push_cast; ring]
    exact Int.cast_lt
  unfold roundHalfEvenDiv specRound
  rw [hfl, frac_eq]
  by_cases hc1 : 2 * (a % b) < b
  · rw [if_pos hc1, if_pos (h1.mpr hc1)]
  · rw [if_neg hc1, if_neg (fun h => hc1 (h1.mp h))]
    by_cases hc2 : b < 2 * (a % b)
    · rw [if_pos hc2, if_pos (h2.mpr hc2)]
    · rw [if_neg hc2, if_neg (fun h => hc2 (h2.mp h))]

theorem specRound_intCast (n : Int) : specRound ((n : Int) : ℚ) = n := by
  unfold specRound
  rw [Int.floor_intCast, sub_self]
  norm_num

theorem fix28_id {d : Dec} (h : digLen d.c.natAbs ≤ 28) : fix28 d = d := by
  simp only [fix28]
  rw [if_pos h]

theorem pyQuantize_id (d : Dec) (p : Nat) (he : d.e = -(p : Int))
    (h : digLen d.c.natAbs ≤ 28) : pyQuantize d p = .ok d := by
  obtain ⟨c, e⟩ := d
  simp only at he h
  subst he
  simp only [pyQuantize]
  rw [if_pos (le_refl _)]
  simp only [sub_self, Int.toNat_zero, pow_zero, mul_one]
  rw [if_pos h]

theorem inRangeB_split {d : Dec} (hr : inRangeB d = true) :
    dLtB maxValue d = false ∧ dLtB d minValue = false := by
  unfold inRangeB at hr
  simp only [Bool.and_eq_true, Bool.not_eq_true'] at hr
  exact hr

theorem constructPD_wf_ok (d : Dec) (cur : Currency)
    (he : d.e = -(cur.precision : Int)) (hd : digLen d.c.natAbs ≤ 28)
    (hr : inRangeB d = true) :
    constructPD (.fin d) cur = .ok ⟨d, cur⟩ := by
  obtain ⟨hr1, hr2⟩ := inRangeB_split hr
  have hcore : constructCore d cur.precision = .ok d := by
    simp only [constructCore, hr1, hr2, Bool.false_eq_true, if_false]
    exact pyQuantize_id d cur.precision he hd
  simp only [constructPD, hcore]

theorem inRange_neg {d : Dec} (h : inRangeB d = true) :
    inRangeB ⟨-d.c, d.e⟩ = true := by
  obtain ⟨c, e⟩ := d
  unfold inRangeB dLtB scaleTo at h ⊢
  simp only [maxValue, minValue, Bool.and_eq_true, Bool.not_eq_true',
    decide_eq_false_iff_not, not_lt] at h ⊢
  rw [min_comm e (-18)] at h ⊢
  obtain ⟨h1, h2⟩ := h
  constructor
  · nlinarith [h1, h2]
  · nlinarith [h1, h2]

theorem inRange_abs {d : Dec} (h : inRangeB d = true) :
    inRangeB ⟨(d.c.natAbs : Int), d.e⟩ = true := by
  obtain ⟨c, e⟩ := d
  unfold inRangeB dLtB scaleTo at h ⊢
  simp only [maxValue, minValue, Bool.and_eq_true, Bool.not_eq_true',
    decide_eq_false_iff_not, not_lt] at h ⊢
  rw [min_comm e (-18)] at h ⊢
  obtain ⟨h1, h2⟩ := h
  have hK1 : (0 : Int) ≤ 10 ^ (-18 - min (-18) e).toNat := by positivity
  have hK2 : (0 : Int) ≤ 10 ^ (e - min (-18) e).toNat := by positivity
  have hcast : ((c.natAbs : Int)) = |c| := (Int.abs_eq_natAbs c).symm
  rw [hcast]
  have habs : |c * 10 ^ (e - min (-18) e).toNat| ≤ 999999999999999999999999999999 * 10 ^ (-18 - min (-18) e).toNat := by
    rw [abs_le]
    constructor <;> nlinarith [h1, h2]
  rw [abs_mul, abs_of_nonneg hK2] at habs
  have hnn : (0 : Int) ≤ |c| * 10 ^ (e - min (-18) e).toNat := by positivity
  constructor
  · exact habs
  · nlinarith [habs, hnn]

/-- The computed decimal lies outside `[MIN_VALUE, MAX_VALUE]`. -/
def outsideB (d : Dec) : Bool := dLtB maxValue d || dLtB d minValue

/-- The operation outcome is one of the two `RangeKind` failures. -/
def isRangeErr (r : MRes) : Prop := r = .err .rangeMax ∨ r = .err .rangeMin

/-- The constructor outcome is one of the two `RangeKind` failures. -/
def isRangeErrE (r : Except Err Money) : Prop := r = .error .rangeMax ∨ r = .error .rangeMin

theorem constructPD_outside {d : Dec} (cur : Currency) (h : outsideB d = true) :
    isRangeErrE (constructPD (.fin d) cur) := by
  unfold outsideB at h
  simp only [Bool.or_eq_true] at h
  by_cases hmx : dLtB maxValue d = true
  · left; simp [constructPD, constructCore, hmx]
  · have hmx' : dLtB maxValue d = false := by
      cases hv : dLtB maxValue d
      · rfl
      · exact absurd hv hmx
    rcases h with h | h
    · exact absurd h hmx
    · right; simp [constructPD, constructCore, hmx', h]

theorem wrapScalar_range {r : Except Err Money} (h : isRangeErrE r) :
    wrapScalar r = .notImpl := by
  rcases h with h | h <;> rw [h] <;> rfl

theorem liftE_range {r : Except Err Money} (h : isRangeErrE r) : isRangeErr (liftE r) := by
  rcases h with h | h
  · left; rw [h]; rfl
  · right; rw [h]; rfl

theorem curEqB_self (c : Currency) : curEqB c c = true := by
  unfold curEqB; simp

theorem pyQuantize_cases (d : Dec) (p : Nat) :
    (∃ q, pyQuantize d p = .ok q) ∨ pyQuantize d p = .error .invalidOp := by
  simp only [pyQuantize]
  split_ifs
  · exact Or.inl ⟨_, rfl⟩
  · exact Or.inr rfl
  · exact Or.inl ⟨_, rfl⟩
  · exact Or.inr rfl

set_option maxRecDepth 4000 in
/-- C2 (amended): `RangeKind` failures happen exactly for unrounded values
outside `[MIN_VALUE, MAX_VALUE]` (the check precedes quantization); the
boundary value `MAX_VALUE` itself constructs successfully for currency
precisions up to 15 — the stored amount then being the rounded-up
`10^12`, one smallest unit above `MAX_VALUE` — while `MAX_VALUE` plus one
smallest unit always fails with the `RangeKind` maximum error. -/
theorem claim_C2_range :
    (∀ (d : Dec) (cur : Currency),
      isRangeErrE (constructPD (.fin d) cur) ↔
        (dLtB maxValue d = true ∨ dLtB d minValue = true)) ∧
    (∀ cur : Currency, cur.precision ≤ 15 →
      constructPD (.fin maxValue) cur =
        .ok ⟨⟨10 ^ (12 + cur.precision), -(cur.precision : Int)⟩, cur⟩) ∧
    (∀ cur : Currency, constructPD (.fin ⟨10 ^ 30, -18⟩) cur = .error .rangeMax) := by
  refine ⟨?_, ?_, ?_⟩
  · intro d cur
    constructor
    · intro h
      by_cases h1 : dLtB maxValue d = true
      · exact Or.inl h1
      · by_cases h2 : dLtB d minValue = true
        · exact Or.inr h2
        · exfalso
          have hf1 : dLtB maxValue d = false := by
            cases hv : dLtB maxValue d
            · rfl
            · exact absurd hv h1
          have hf2 : dLtB d minValue = false := by
            cases hv : dLtB d minValue
            · rfl
            · exact absurd hv h2
          rcases pyQuantize_cases d cur.precision with ⟨q, hq⟩ | hq <;>
            rcases h with h | h <;>
            simp [constructPD, constructCore, hf1, hf2, hq] at h
    · intro h
      exact constructPD_outside cur (by unfold outsideB; simp only [Bool.or_eq_true]; exact h)
  · intro cur h
    have hcore : constructCore maxValue cur.precision =
        .ok ⟨10 ^ (12 + cur.precision), -(cur.precision : Int)⟩ := by
      obtain ⟨code, p⟩ := cur
      simp only at h ⊢
      interval_cases p <;> rfl
    simp only [constructPD, hcore]
  · intro cur
    have hcore : constructCore ⟨10 ^ 30, -18⟩ cur.precision = .error .rangeMax := by
      simp only [constructCore]
      rw [if_pos (by rfl)]
    simp only [constructPD, hcore]

/-- C2 counterexample: for a currency with 16 fractional digits the
construction at exactly `MAX_VALUE` does not succeed — the quantized
coefficient would have 29 digits, so `quantize` signals `InvalidOperation`
(the claim asserts construction at `MAX_VALUE` succeeds). -/
theorem claim_C2_cex : constructPD (.fin maxValue) ⟨"XAU", 16⟩ = .error .invalidOp := rfl

/-- C2 witness: at `USD` (precision 2), `MAX_VALUE` plus one smallest unit
fails with the maximum `RangeKind` error, and `MAX_VALUE` itself constructs. -/
theorem claim_C2_witness :
    isRangeErrE (constructPD (.fin ⟨10 ^ 30, -18⟩) usd) ∧
    constructPD (.fin maxValue) usd = .ok ⟨⟨100000000000000, -2⟩, usd⟩ :=
  ⟨(claim_C2_range.1 ⟨10 ^ 30, -18⟩ usd).mpr (Or.inl (by decide)),
   claim_C2_range.2.1 usd (by decide)⟩

/-- C3 (amended): whenever the computed decimal result of an arithmetic
operation lies outside `[MIN_VALUE, MAX_VALUE]`, the re-construction step
raises a `RangeKind` error when the other operand is a `MonetaryAmount`
(add, subtract) and for the unary operations (negate, unary plus, absolute
value); but when the other operand is a plain number, the scalar paths
catch that `ValueError` and return `NotImplemented` instead, so the range
failure surfaces as an unsupported-operand outcome rather than a
`RangeKind` error. -/
theorem claim_C3_overflow :
    (∀ a b : Money, a.currency = b.currency →
      outsideB (decAdd a.value b.value) = true → isRangeErr (addMM a b)) ∧
    (∀ a b : Money, a.currency = b.currency →
      outsideB (decSub a.value b.value) = true → isRangeErr (subMM a b)) ∧
    (∀ (a : Money) (k : Dec), outsideB (decAdd a.value k) = true → addMS a k = .notImpl) ∧
    (∀ (a : Money) (k : Dec), outsideB (decSub a.value k) = true → subMS a k = .notImpl) ∧
    (∀ (a : Money) (k : Dec), outsideB (decSub k a.value) = true → rsubMS a k = .notImpl) ∧
    (∀ (a : Money) (k : Dec), outsideB (decMul a.value k) = true → mulMS a k = .notImpl) ∧
    (∀ (a : Money) (k : Dec), dEqB k ⟨0, 0⟩ = false →
      outsideB (decDiv a.value k) = true → divMS a k = .notImpl) ∧
    (∀ m : Money, outsideB (decNeg m.value) = true → isRangeErrE (negM m)) ∧
    (∀ m : Money, outsideB m.value = true → isRangeErrE (posM m)) ∧
    (∀ m : Money, outsideB (decAbsD m.value) = true → isRangeErrE (absM m)) := by
  refine ⟨?_, ?_, ?_, ?_, ?_, ?_, ?_, ?_, ?_, ?_⟩
  · intro a b hcur h
    unfold addMM
    rw [hcur, if_pos (curEqB_self b.currency)]
    exact liftE_range (constructPD_outside _ h)
  · intro a b hcur h
    unfold subMM
    rw [hcur, if_pos (curEqB_self b.currency)]
    exact liftE_range (constructPD_outside _ h)
  · intro a k h
    exact wrapScalar_range (constructPD_outside _ h)
  · intro a k h
    exact wrapScalar_range (constructPD_outside _ h)
  · intro a k h
    exact wrapScalar_range (constructPD_outside _ h)
  · intro a k h
    exact wrapScalar_range (constructPD_outside _ h)
  · intro a k hk h
    unfold divMS
    rw [hk]
    simp only [Bool.false_eq_true, if_false]
    exact wrapScalar_range (constructPD_outside _ h)
  · intro m h
    exact constructPD_outside _ h
  · intro m h
    exact constructPD_outside _ h
  · intro m h
    exact constructPD_outside _ h

/-- The amount `999999999999.00 USD` (in range, well formed). -/
def m999 : Money := ⟨⟨99999999999900, -2⟩, usd⟩

/-- C3 counterexample: adding the plain number `1` to the existing amount
`999999999999.00 USD` yields a sum above `MAX_VALUE`, yet the operation
returns `NotImplemented` (Python then raises an operand `TypeError`), not
the `RangeKind` error the claim asserts for plain-number operands. -/
theorem claim_C3_cex :
    constructVal (.dec (.fin ⟨999999999999, 0⟩)) usd = .ok m999 ∧
    outsideB (decAdd m999.value ⟨1, 0⟩) = true ∧
    addMS m999 ⟨1, 0⟩ = .notImpl ∧
    addMS m999 ⟨1, 0⟩ ≠ .err .rangeMax ∧ addMS m999 ⟨1, 0⟩ ≠ .err .rangeMin :=
  ⟨rfl, rfl, rfl, by decide, by decide⟩

/-- C3 witness: a `Money + Money` overflow raises `RangeKind`, and the same
numeric overflow through the scalar path returns `NotImplemented`. -/
theorem claim_C3_witness :
    isRangeErr (addMM m999 m999) ∧ addMS m999 ⟨2, 0⟩ = .notImpl :=
  ⟨claim_C3_overflow.1 m999 m999 rfl (by decide),
   claim_C3_overflow.2.2.1 m999 ⟨2, 0⟩ (by decide)⟩

/-- C4: a value that cannot be parsed as an exact decimal makes the
constructor raise `decimal.InvalidOperation` — an `ArithmeticError`, not
one of the `(ValueError, TypeError)` classes the conversion guard catches
and not the `ValueError` the docstring documents. -/
theorem claim_C4_badparse :
    constructVal (.str "abc") usd = .error .invalidOp ∧
    errCaught .invalidOp = false :=
  ⟨rfl, rfl⟩

/-- C6: ordering between amounts of different currency codes fails with the
currency-mismatch `ValueError` while equality returns `false`; equality
against a non-`Money` value is `false` and never raises; and two amounts
compare equal exactly when they share a currency code and a numerically
equal stored value. -/
theorem claim_C6_comparisons :
    (∀ a b : Money, a.currency.code ≠ b.currency.code →
      ltM a b = .error .currencyMismatch ∧ leM a b = .error .currencyMismatch ∧
      gtM a b = .error .currencyMismatch ∧ geM a b = .error .currencyMismatch ∧
      eqM a b = false) ∧
    (∀ a : Money, eqOp a .nonMoney = false) ∧
    (∀ a b : Money, eqM a b = true ↔
      (a.currency.code = b.currency.code ∧ dEqB a.value b.value = true)) := by
  refine ⟨?_, ?_, ?_⟩
  · intro a b hne
    have hcur : curEqB a.currency b.currency = false := by
      unfold curEqB
      simp [hne]
    refine ⟨?_, ?_, ?_, ?_, ?_⟩ <;>
      simp [ltM, leM, gtM, geM, eqM, hcur]
  · intro a
    rfl
  · intro a b
    unfold eqM curEqB
    simp [Bool.and_eq_true]

/-- C6 witness: concrete USD/EUR amounts of equal numeric value. -/
theorem claim_C6_witness :
    ltM ⟨⟨100, -2⟩, usd⟩ ⟨⟨100, -2⟩, ⟨"EUR", 2⟩⟩ = .error .currencyMismatch ∧
    eqM ⟨⟨100, -2⟩, usd⟩ ⟨⟨100, -2⟩, ⟨"EUR", 2⟩⟩ = false ∧
    eqOp ⟨⟨100, -2⟩, usd⟩ .nonMoney = false ∧
    (eqM ⟨⟨100, -2⟩, usd⟩ ⟨⟨1000, -3⟩, usd⟩ = true ↔
      (("USD" : String) = "USD" ∧ dEqB ⟨100, -2⟩ ⟨1000, -3⟩ = true)) :=
  ⟨(claim_C6_comparisons.1 ⟨⟨100, -2⟩, usd⟩ ⟨⟨100, -2⟩, ⟨"EUR", 2⟩⟩ (by decide)).1,
   (claim_C6_comparisons.1 ⟨⟨100, -2⟩, usd⟩ ⟨⟨100, -2⟩, ⟨"EUR", 2⟩⟩ (by decide)).2.2.2.2,
   claim_C6_comparisons.2.1 ⟨⟨100, -2⟩, usd⟩,
   claim_C6_comparisons.2.2 ⟨⟨100, -2⟩, usd⟩ ⟨⟨1000, -3⟩, usd⟩⟩

/-- C8: addition of same-currency amounts is commutative (the two results
are identical, construction errors included), and `k * amount` delegates to
`amount * k` verbatim via `__rmul__`. -/
theorem claim_C8_commutativity :
    (∀ a b : Money, a.currency = b.currency → addMM a b = addMM b a) ∧
    (∀ (k : Dec) (a : Money), mulSM k a = mulMS a k) := by
  constructor
  · intro a b h
    have hsum : decAdd a.value b.value = decAdd b.value a.value := by
      show fix28 ⟨scaleTo a.value (min a.value.e b.value.e) +
          scaleTo b.value (min a.value.e b.value.e), min a.value.e b.value.e⟩ =
        fix28 ⟨scaleTo b.value (min b.value.e a.value.e) +
          scaleTo a.value (min b.value.e a.value.e), min b.value.e a.value.e⟩
      rw [min_comm a.value.e b.value.e, add_comm]
    unfold addMM
    rw [h, hsum]
  · intro k a
    rfl

/-- C8 witness: `1.00 USD + 2.50 USD` both ways, and `3 * m = m * 3`. -/
theorem claim_C8_witness :
    addMM ⟨⟨100, -2⟩, usd⟩ ⟨⟨250, -2⟩, usd⟩ = addMM ⟨⟨250, -2⟩, usd⟩ ⟨⟨100, -2⟩, usd⟩ ∧
    mulSM ⟨3, 0⟩ ⟨⟨100, -2⟩, usd⟩ = mulMS ⟨⟨100, -2⟩, usd⟩ ⟨3, 0⟩ :=
  ⟨claim_C8_commutativity.1 ⟨⟨100, -2⟩, usd⟩ ⟨⟨250, -2⟩, usd⟩ rfl,
   claim_C8_commutativity.2 ⟨3, 0⟩ ⟨⟨100, -2⟩, usd⟩⟩

/-- C5 (amended): division of one amount by another requires equal
currencies, raises `ZeroDivisionError` on a zero divisor amount, and
otherwise returns the dimensionless `Decimal` ratio (the result type of
`divMM` is a decimal, not a `Money`), with `10.00 USD / 2.00 USD = 5`
exactly; division by a plain number raises `ZeroDivisionError` on a zero
scalar, and otherwise returns a `MonetaryAmount` whenever the quotient
passes re-construction (an out-of-range quotient is caught by the scalar
guard and surfaces as `NotImplemented` instead of a `Money`). -/
theorem claim_C5_division :
    (∀ a b : Money, curEqB a.currency b.currency = false →
      divMM a b = .error .currencyMismatch) ∧
    (∀ a b : Money, curEqB a.currency b.currency = true →
      dEqB b.value ⟨0, 0⟩ = true → divMM a b = .error .zeroDiv) ∧
    (∀ a b : Money, curEqB a.currency b.currency = true →
      dEqB b.value ⟨0, 0⟩ = false → divMM a b = .ok (decDiv a.value b.value)) ∧
    divMM ⟨⟨1000, -2⟩, usd⟩ ⟨⟨200, -2⟩, usd⟩ = .ok ⟨5, 0⟩ ∧
    (∀ (a : Money) (k : Dec), dEqB k ⟨0, 0⟩ = true → divMS a k = .err .zeroDiv) ∧
    (∀ (a : Money) (k : Dec) (m' : Money), dEqB k ⟨0, 0⟩ = false →
      constructPD (.fin (decDiv a.value k)) a.currency = .ok m' →
      divMS a k = .ok m') := by
  refine ⟨?_, ?_, ?_, rfl, ?_, ?_⟩
  · intro a b h
    unfold divMM
    rw [h]
    rfl
  · intro a b hc hz
    unfold divMM
    rw [hc, hz]
    rfl
  · intro a b hc hz
    unfold divMM
    rw [hc, hz]
    rfl
  · intro a k h
    unfold divMS
    rw [h]
    rfl
  · intro a k m' hk hok
    unfold divMS
    rw [hk]
    simp only [Bool.false_eq_true, if_false, wrapScalar, hok]

/-- The amount `600000000000.00 USD` (in range, well formed). -/
def m600 : Money := ⟨⟨60000000000000, -2⟩, usd⟩

/-- C5 counterexample: dividing the existing amount `600000000000.00 USD`
by the nonzero plain number `0.5` yields `1.2 * 10^12`, above `MAX_VALUE`;
the operation returns `NotImplemented` rather than a `MonetaryAmount`,
contradicting the claim's "otherwise returns a MonetaryAmount". -/
theorem claim_C5_cex :
    constructVal (.dec (.fin ⟨600000000000, 0⟩)) usd = .ok m600 ∧
    dEqB ⟨5, -1⟩ ⟨0, 0⟩ = false ∧
    divMS m600 ⟨5, -1⟩ = .notImpl :=
  ⟨rfl, rfl, rfl⟩

/-- C5 witness: `10.00 USD / 0 USD` and `10.00 USD / 0` raise
`ZeroDivisionError`; `10.00 USD / 4` is the amount `2.50 USD`. -/
theorem claim_C5_witness :
    divMM ⟨⟨1000, -2⟩, usd⟩ ⟨⟨0, -2⟩, usd⟩ = .error .zeroDiv ∧
    divMS ⟨⟨1000, -2⟩, usd⟩ ⟨0, 0⟩ = .err .zeroDiv ∧
    divMS ⟨⟨1000, -2⟩, usd⟩ ⟨4, 0⟩ = .ok ⟨⟨250, -2⟩, usd⟩ :=
  ⟨claim_C5_division.2.1 ⟨⟨1000, -2⟩, usd⟩ ⟨⟨0, -2⟩, usd⟩ rfl rfl,
   claim_C5_division.2.2.2.2.1 ⟨⟨1000, -2⟩, usd⟩ ⟨0, 0⟩ rfl,
   claim_C5_division.2.2.2.2.2 ⟨⟨1000, -2⟩, usd⟩ ⟨4, 0⟩ ⟨⟨250, -2⟩, usd⟩ rfl rfl⟩

theorem decNeg_def (d : Dec) : decNeg d = fix28 ⟨-d.c, d.e⟩ := rfl

theorem decAbsD_def (d : Dec) : decAbsD d = fix28 ⟨(d.c.natAbs : Int), d.e⟩ := rfl

theorem negM_def (m : Money) : negM m = constructPD (.fin (decNeg m.value)) m.currency := rfl

theorem negM_mk (v : Dec) (cur : Currency) :
    negM ⟨v, cur⟩ = constructPD (.fin (decNeg v)) cur := rfl

theorem posM_def (m : Money) : posM m = constructPD (.fin m.value) m.currency := rfl

theorem absM_def (m : Money) : absM m = constructPD (.fin (decAbsD m.value)) m.currency := rfl

theorem absM_mk (v : Dec) (cur : Currency) :
    absM ⟨v, cur⟩ = constructPD (.fin (decAbsD v)) cur := rfl

/-- C10 (amended): on any existing amount whose stored value lies within
`[MIN_VALUE, MAX_VALUE]` (which quantization does not guarantee for every
constructible amount), negation is an involution, unary plus is the
identity, absolute value is idempotent, and none of the three fails. -/
theorem claim_C10_unary :
    ∀ m : Money, m.value.e = -(m.currency.precision : Int) →
      digLen m.value.c.natAbs ≤ 28 → inRangeB m.value = true →
      (negM m).bind negM = .ok m ∧
      posM m = .ok m ∧
      (∃ n, negM m = .ok n) ∧
      (absM m).bind absM = absM m ∧
      (∃ b, absM m = .ok b) := by
  intro m he hd hr
  have hdneg : digLen ((-m.value.c).natAbs) ≤ 28 := by
    rw [Int.natAbs_neg]
    exact hd
  have hdabs : digLen (((m.value.c.natAbs : Int)).natAbs) ≤ 28 := by
    rw [Int.natAbs_ofNat]
    exact hd
  have hneg1 : decNeg m.value = ⟨-m.value.c, m.value.e⟩ := by
    rw [decNeg_def]
    exact fix28_id hdneg
  have hneg2 : decNeg ⟨-m.value.c, m.value.e⟩ = ⟨m.value.c, m.value.e⟩ := by
    rw [decNeg_def]
    show fix28 ⟨- -m.value.c, m.value.e⟩ = ⟨m.value.c, m.value.e⟩
    rw [neg_neg]
    exact fix28_id hd
  have habs1 : decAbsD m.value = ⟨(m.value.c.natAbs : Int), m.value.e⟩ := by
    rw [decAbsD_def]
    exact fix28_id hdabs
  have habs2 : decAbsD ⟨(m.value.c.natAbs : Int), m.value.e⟩ =
      ⟨(m.value.c.natAbs : Int), m.value.e⟩ := by
    rw [decAbsD_def]
    show fix28 ⟨(((m.value.c.natAbs : Int)).natAbs : Int), m.value.e⟩ =
      ⟨(m.value.c.natAbs : Int), m.value.e⟩
    rw [Int.natAbs_ofNat]
    exact fix28_id hd
  have hokneg : negM m = .ok ⟨⟨-m.value.c, m.value.e⟩, m.currency⟩ := by
    rw [negM_def, hneg1]
    exact constructPD_wf_ok _ _ he hdneg (inRange_neg hr)
  have hokabs : absM m = .ok ⟨⟨(m.value.c.natAbs : Int), m.value.e⟩, m.currency⟩ := by
    rw [absM_def, habs1]
    exact constructPD_wf_ok _ _ he hdabs (inRange_abs hr)
  refine ⟨?_, ?_, ⟨_, hokneg⟩, ?_, ⟨_, hokabs⟩⟩
  · rw [hokneg]
    simp only [Except.bind]
    rw [negM_mk, hneg2]
    rw [constructPD_wf_ok _ _ he hd hr]
  · rw [posM_def]
    rw [constructPD_wf_ok _ _ he hd hr]
  · have hstep : absM ⟨⟨(m.value.c.natAbs : Int), m.value.e⟩, m.currency⟩ =
        .ok ⟨⟨(m.value.c.natAbs : Int), m.value.e⟩, m.currency⟩ := by
      rw [absM_mk, habs2]
      exact constructPD_wf_ok _ _ he hdabs (inRange_abs hr)
    rw [hokabs]
    simp only [Except.bind]
    exact hstep

/-- The out-of-range amount `1000000000000.00 USD` that constructing at
exactly `MAX_VALUE` stores (rounding up past the bound). -/
def mBig : Money := ⟨⟨100000000000000, -2⟩, usd⟩

/-- C10 counterexample: `Money(MAX_VALUE, USD)` succeeds and stores
`1000000000000.00`, above `MAX_VALUE`; on this existing amount both
negation and absolute value fail with `RangeKind` errors, contradicting
the claim that they never fail. -/
theorem claim_C10_cex :
    constructVal (.dec (.fin maxValue)) usd = .ok mBig ∧
    negM mBig = .error .rangeMin ∧
    absM mBig = .error .rangeMax :=
  ⟨rfl, rfl, rfl⟩

/-- C10 witness: the in-range amount `-12.34 USD`. -/
theorem claim_C10_witness :
    (negM ⟨⟨-1234, -2⟩, usd⟩).bind negM = .ok ⟨⟨-1234, -2⟩, usd⟩ ∧
    posM ⟨⟨-1234, -2⟩, usd⟩ = .ok ⟨⟨-1234, -2⟩, usd⟩ ∧
    (absM ⟨⟨-1234, -2⟩, usd⟩).bind absM = absM ⟨⟨-1234, -2⟩, usd⟩ :=
  ⟨(claim_C10_unary ⟨⟨-1234, -2⟩, usd⟩ rfl (by decide) (by decide)).1,
   (claim_C10_unary ⟨⟨-1234, -2⟩, usd⟩ rfl (by decide) (by decide)).2.1,
   (claim_C10_unary ⟨⟨-1234, -2⟩, usd⟩ rfl (by decide) (by decide)).2.2.2.1⟩

theorem toRat_mul_pow (d : Dec) (p : Nat) :
    d.toRat * 10 ^ p = (d.c : ℚ) * (10 : ℚ) ^ (d.e + (p : Int)) := by
  unfold Dec.toRat
  rw [mul_assoc]
  congr 1
  rw [← zpow_natCast (10 : ℚ) p, ← zpow_add₀ (by norm_num : (10 : ℚ) ≠ 0)]

theorem spec_coeff_scaleup (d : Dec) (p : Nat) (h : -(p : Int) ≤ d.e) :
    specRound (d.toRat * 10 ^ p) = d.c * 10 ^ (d.e - -(p : Int)).toNat := by
  rw [toRat_mul_pow]
  have hk : d.e + (p : Int) = ((d.e - -(p : Int)).toNat : Int) := by omega
  rw [hk, zpow_natCast]
  rw [show ((10 : ℚ) ^ ((d.e - -(p : Int)).toNat)) =
      (((10 ^ (d.e - -(p : Int)).toNat : Int)) : ℚ) by push_cast; ring]
  rw [show ((d.c : ℚ) * (((10 ^ (d.e - -(p : Int)).toNat : Int)) : ℚ)) =
      (((d.c * 10 ^ (d.e - -(p : Int)).toNat : Int)) : ℚ) by push_cast; ring]
  exact specRound_intCast _

theorem spec_coeff_rounddown (d : Dec) (p : Nat) (h : d.e < -(p : Int)) :
    specRound (d.toRat * 10 ^ p) = roundHalfEvenDiv d.c (10 ^ (-(p : Int) - d.e).toNat) := by
  have hb : (0 : Int) < 10 ^ (-(p : Int) - d.e).toNat := by positivity
  rw [roundHalfEvenDiv_eq_specRound _ _ hb]
  congr 1
  rw [toRat_mul_pow]
  have hk : d.e + (p : Int) = -(((-(p : Int) - d.e).toNat : Int)) := by omega
  rw [hk, zpow_neg, zpow_natCast, div_eq_mul_inv]
  congr 1
  push_cast
  ring

theorem pyQuantize_spec (d : Dec) (p : Nat)
    (hfit : digLen ((specRound (d.toRat * 10 ^ p)).natAbs) ≤ 28) :
    pyQuantize d p = .ok ⟨specRound (d.toRat * 10 ^ p), -(p : Int)⟩ := by
  by_cases h : -(p : Int) ≤ d.e
  · have hc := spec_coeff_scaleup d p h
    simp only [pyQuantize]
    rw [if_pos h, ← hc, if_pos hfit]
  · have hc := spec_coeff_rounddown d p (not_le.mp h)
    simp only [pyQuantize]
    rw [if_neg h, ← hc, if_pos hfit]

/-- C1 (amended): for every in-range exact-decimal input and every currency
whose quantized coefficient fits the 28-significant-digit decimal context,
the stored amount is exactly the input rounded to `currency.precision`
fractional digits (exponent exactly `-precision`) with round-half-to-even as
the tie-break; when the quantized coefficient would exceed 28 digits,
construction instead fails with `decimal.InvalidOperation`.  The rounded
coefficient is characterised by the implementation-independent `specRound`
on rationals. -/
theorem claim_C1_quantization :
    ∀ (d : Dec) (cur : Currency), inRangeB d = true →
      digLen ((specRound (d.toRat * 10 ^ cur.precision)).natAbs) ≤ 28 →
      constructPD (.fin d) cur =
        .ok ⟨⟨specRound (d.toRat * 10 ^ cur.precision), -(cur.precision : Int)⟩, cur⟩ := by
  intro d cur hr hfit
  obtain ⟨hr1, hr2⟩ := inRangeB_split hr
  have hcore : constructCore d cur.precision =
      .ok ⟨specRound (d.toRat * 10 ^ cur.precision), -(cur.precision : Int)⟩ := by
    simp only [constructCore, hr1, hr2, Bool.false_eq_true, if_false]
    exact pyQuantize_spec d cur.precision hfit
  simp only [constructPD, hcore]

/-- C1 counterexample: the exact decimal `MAX_VALUE` is a valid, in-range
input, yet with a currency of precision 18 nothing is stored at all —
quantize would keep the full 30-digit coefficient, above the 28-digit
context precision, and construction raises `decimal.InvalidOperation`. -/
theorem claim_C1_cex :
    inRangeB maxValue = true ∧
    constructPD (.fin maxValue) ⟨"ETH", 18⟩ = .error .invalidOp :=
  ⟨rfl, rfl⟩

/-- C1 witness: the spec's pinned example — constructing the exact decimal
`1.005` at precision 2 stores `1.00` (tie broken to the even coefficient). -/
theorem claim_C1_witness :
    constructPD (.fin ⟨1005, -3⟩) usd =
      .ok ⟨⟨specRound ((⟨1005, -3⟩ : Dec).toRat * 10 ^ usd.precision),
           -(usd.precision : Int)⟩, usd⟩ ∧
    specRound ((⟨1005, -3⟩ : Dec).toRat * 10 ^ usd.precision) = 100 := by
  have h100 : specRound ((⟨1005, -3⟩ : Dec).toRat * 10 ^ usd.precision) = 100 := by
    show specRound ((⟨1005, -3⟩ : Dec).toRat * 10 ^ (2 : Nat)) = 100
    rw [spec_coeff_rounddown ⟨1005, -3⟩ 2 (by decide)]
    decide
  exact ⟨claim_C1_quantization ⟨1005, -3⟩ usd (by decide) (by rw [h100]; decide), h100⟩

theorem digChar_eq_char (d : Nat) (h : d < 10) :
    isDig (digChar d) = true ∧ digVal (digChar d) = d ∧ isWs (digChar d) = false ∧
    digChar d ≠ '_' ∧ lowerCh (digChar d) = digChar d ∧
    digChar d ≠ '-' ∧ digChar d ≠ '+' := by
  interval_cases d <;> exact ⟨rfl, rfl, rfl, by decide, rfl, by decide, by decide⟩

theorem digitsF_lt (f n : Nat) : ∀ d ∈ digitsF f n, d < 10 := by
  induction f generalizing n with
  | zero => intro d hd; simp [digitsF] at hd
  | succ f ih =>
    intro d hd
    by_cases hn : n = 0
    · simp [digitsF, hn] at hd
    · simp only [digitsF, if_neg hn, List.mem_cons] at hd
      rcases hd with h | h
      · subst h; exact Nat.mod_lt n (by norm_num)
      · exact ih (n / 10) d h

theorem foldr_digitsF (f n : Nat) (h : n < 10 ^ f) :
    List.foldr (fun d a => 10 * a + d) 0 (digitsF f n) = n := by
  induction f generalizing n with
  | zero =>
    interval_cases n
    rfl
  | succ f ih =>
    by_cases hn : n = 0
    · subst hn; rfl
    · simp only [digitsF, if_neg hn, List.foldr_cons]
      have hdiv : n / 10 < 10 ^ f := by
        rw [Nat.div_lt_iff_lt_mul (by norm_num : 0 < 10)]
        calc n < 10 ^ (f + 1) := h
        _ = 10 ^ f * 10 := by ring
      rw [ih (n / 10) hdiv]
      omega

theorem ofD_coeffDigs (n : Nat) : ofD (coeffDigs n) = n := by
  by_cases hn : n = 0
  · subst hn; rfl
  · unfold coeffDigs ofD
    rw [if_neg hn, List.foldl_reverse]
    exact foldr_digitsF n n (Nat.lt_pow_self (by norm_num) n)

theorem coeffDigs_lt (n : Nat) : ∀ d ∈ coeffDigs n, d < 10 := by
  unfold coeffDigs
  by_cases hn : n = 0
  · rw [if_pos hn]; intro d hd; simp at hd; omega
  · rw [if_neg hn]
    intro d hd
    exact digitsF_lt n n d (List.mem_reverse.mp hd)

theorem coeffDigs_ne_nil (n : Nat) : coeffDigs n ≠ [] := by
  unfold coeffDigs
  by_cases hn : n = 0
  · rw [if_pos hn]; simp
  · rw [if_neg hn]
    simp only [ne_eq, List.reverse_eq_nil_iff]
    match hf : n, hn with
    | f + 1, _ =>
      simp [digitsF]

theorem ofD_append_left_zeros (z : Nat) (l : List Nat) :
    ofD (List.replicate z 0 ++ l) = ofD l := by
  induction z with
  | zero => rfl
  | succ z ih =>
    simp only [List.replicate_succ, List.cons_append]
    show ofD (List.replicate z 0 ++ l) = ofD l
    exact ih

theorem ofD_cons_zero (l : List Nat) : ofD (0 :: l) = ofD l := rfl

theorem takeDigs_mapD (D : List Nat) (r : List Char) (hD : ∀ d ∈ D, d < 10)
    (hr : ∀ ch cs, r = ch :: cs → isDig ch = false) :
    takeDigs (mapD D ++ r) = (D, r) := by
  induction D with
  | nil =>
    cases r with
    | nil => rfl
    | cons ch cs =>
      simp only [mapD, List.map_nil, List.nil_append, takeDigs]
      rw [hr ch cs rfl]
      rfl
  | cons d D ih =>
    have hd : d < 10 := hD d (List.mem_cons_self d D)
    simp only [mapD, List.map_cons, List.cons_append, takeDigs,
      (digChar_eq_char d hd).1, if_true]
    rw [show (List.map digChar D).append r = mapD D ++ r from rfl,
      ih (fun x hx => hD x (List.mem_cons_of_mem d hx))]
    simp [(digChar_eq_char d hd).2.1]

theorem readSign_digit (ch : Char) (cs : List Char) (h : isDig ch = true) :
    readSign (ch :: cs) = (false, ch :: cs) := by
  have h1 : ch ≠ '-' := by
    intro he
    rw [he] at h
    exact absurd h (by decide)
  have h2 : ch ≠ '+' := by
    intro he
    rw [he] at h
    exact absurd h (by decide)
  show (if ch = '-' then (true, cs) else if ch = '+' then (false, cs)
    else (false, ch :: cs)) = (false, ch :: cs)
  rw [if_neg h1, if_neg h2]

theorem lowerCh_digit (ch : Char) (h : isDig ch = true) : lowerCh ch = ch := by
  unfold isDig at h
  simp only [Bool.and_eq_true, decide_eq_true_eq] at h
  unfold lowerCh
  rw [if_neg]
  simp only [Bool.and_eq_true, decide_eq_true_eq, not_and, not_le]
  intro h65
  omega

theorem isInfWord_digit (ch : Char) (rest : List Char) (h : isDig ch = true) :
    isInfWord (ch :: rest) = false := by
  have hne : lowerCh ch ≠ 'i' := by
    rw [lowerCh_digit ch h]
    intro he
    subst he
    exact absurd h (by decide)
  unfold isInfWord
  simp [hne]

theorem isNanWord_digit (ch : Char) (rest : List Char) (h : isDig ch = true) :
    isNanWord (ch :: rest) = false := by
  have hn : lowerCh ch ≠ 'n' := by
    rw [lowerCh_digit ch h]
    intro he
    subst he
    exact absurd h (by decide)
  have hs : lowerCh ch ≠ 's' := by
    rw [lowerCh_digit ch h]
    intro he
    subst he
    exact absurd h (by decide)
  unfold isNanWord
  simp only [List.map_cons]
  split
  · next heq =>
    injection heq with h1 h2
    first
    | exact absurd h1 hn
    | exact absurd h1.symm hn
  · next heq =>
    injection heq with h1 h2
    first
    | exact absurd h1 hs
    | exact absurd h1.symm hs
  · rfl

theorem parseTail_nil (neg : Bool) (I F : List Nat) (hne : I ≠ []) :
    parseTail neg I F [] = finishNum neg I F 0 := by
  obtain ⟨i0, I', rfl⟩ : ∃ i0 I', I = i0 :: I' := by
    cases I with
    | nil => exact absurd rfl hne
    | cons a l => exact ⟨a, l, rfl⟩
  simp [parseTail]

theorem parseTail_negExp (neg : Bool) (I F : List Nat) (K : Int)
    (hne : I ≠ []) (hK : K < 0) :
    parseTail neg I F ('E' :: intSignedChars K) = finishNum neg I F K := by
  obtain ⟨i0, I', rfl⟩ : ∃ i0 I', I = i0 :: I' := by
    cases I with
    | nil => exact absurd rfl hne
    | cons a l => exact ⟨a, l, rfl⟩
  have hchars : intSignedChars K = '-' :: mapD (coeffDigs K.natAbs) := by
    unfold intSignedChars
    rw [if_pos hK]
    rfl
  rw [hchars]
  have htd : takeDigs (mapD (coeffDigs K.natAbs) ++ []) = (coeffDigs K.natAbs, []) :=
    takeDigs_mapD _ [] (coeffDigs_lt _) (fun ch cs h => List.noConfusion h)
  rw [List.append_nil] at htd
  simp only [parseTail]
  rw [show readSign ('-' :: mapD (coeffDigs K.natAbs)) =
    (true, mapD (coeffDigs K.natAbs)) from rfl]
  simp only [htd]
  have hKc : -((ofD (coeffDigs K.natAbs) : Nat) : Int) = K := by
    rw [ofD_coeffDigs]
    omega
  simp [coeffDigs_ne_nil K.natAbs, List.isEmpty_iff, hKc]

theorem readSign_signed (neg : Bool) (d0 : Nat) (rest : List Char) (hd0 : d0 < 10) :
    readSign ((if neg then ['-'] else []) ++ (digChar d0 :: rest)) =
      (neg, digChar d0 :: rest) := by
  cases neg
  · simp only [Bool.false_eq_true, if_false, List.nil_append]
    exact readSign_digit _ _ (digChar_eq_char d0 hd0).1
  · rfl

theorem parsePD_nodot (neg : Bool) (D : List Nat) (r : List Char)
    (hD : ∀ d ∈ D, d < 10) (hne : D ≠ [])
    (hr : ∀ ch cs, r = ch :: cs → isDig ch = false ∧ ch ≠ '.') :
    parsePD ((if neg then ['-'] else []) ++ (mapD D ++ r)) = parseTail neg D [] r := by
  obtain ⟨d0, D', rfl⟩ : ∃ d0 D', D = d0 :: D' := by
    cases D with
    | nil => exact absurd rfl hne
    | cons a l => exact ⟨a, l, rfl⟩
  have hd0 : d0 < 10 := hD d0 (List.mem_cons_self _ _)
  have hdig := (digChar_eq_char d0 hd0).1
  have hhead : mapD (d0 :: D') ++ r = digChar d0 :: (mapD D' ++ r) := rfl
  have hsign := readSign_signed neg d0 (mapD D' ++ r) hd0
  rw [← hhead] at hsign
  have htd : takeDigs (mapD (d0 :: D') ++ r) = (d0 :: D', r) :=
    takeDigs_mapD _ r hD (fun ch cs hc => (hr ch cs hc).1)
  simp only [parsePD, hsign]
  rw [hhead, isInfWord_digit _ _ hdig, isNanWord_digit _ _ hdig]
  simp only [Bool.false_eq_true, if_false]
  rw [← hhead]
  simp only [htd]
  split
  · exact absurd rfl (hr '.' _ rfl).2
  · rfl

theorem parsePD_dot (neg : Bool) (D F : List Nat) (r : List Char)
    (hD : ∀ d ∈ D, d < 10) (hne : D ≠ []) (hF : ∀ d ∈ F, d < 10)
    (hr : ∀ ch cs, r = ch :: cs → isDig ch = false) :
    parsePD ((if neg then ['-'] else []) ++ (mapD D ++ '.' :: (mapD F ++ r))) =
      parseTail neg D F r := by
  obtain ⟨d0, D', rfl⟩ : ∃ d0 D', D = d0 :: D' := by
    cases D with
    | nil => exact absurd rfl hne
    | cons a l => exact ⟨a, l, rfl⟩
  have hd0 : d0 < 10 := hD d0 (List.mem_cons_self _ _)
  have hdig := (digChar_eq_char d0 hd0).1
  have hhead : mapD (d0 :: D') ++ '.' :: (mapD F ++ r) =
      digChar d0 :: (mapD D' ++ '.' :: (mapD F ++ r)) := rfl
  have hsign := readSign_signed neg d0 (mapD D' ++ '.' :: (mapD F ++ r)) hd0
  rw [← hhead] at hsign
  have htd : takeDigs (mapD (d0 :: D') ++ '.' :: (mapD F ++ r)) =
      (d0 :: D', '.' :: (mapD F ++ r)) :=
    takeDigs_mapD _ _ hD (fun ch cs hc => by
      rw [List.cons.injEq] at hc
      rw [← hc.1]
      rfl)
  have htdF : takeDigs (mapD F ++ r) = (F, r) := takeDigs_mapD _ r hF hr
  simp only [parsePD, hsign]
  rw [hhead, isInfWord_digit _ _ hdig, isNanWord_digit _ _ hdig]
  simp only [Bool.false_eq_true, if_false]
  rw [← hhead]
  simp only [htd, htdF]

theorem finishNum_eq (neg : Bool) (I F : List Nat) (k : Int) :
    finishNum neg I F k = some (.fin ⟨if neg = true then -(ofD (I ++ F) : Int)
      else (ofD (I ++ F) : Int), k - F.length⟩) := rfl

theorem ofD_sign (c : Int) :
    (if decide (c < 0) = true then -((c.natAbs : Nat) : Int) else ((c.natAbs : Nat) : Int)) = c := by
  by_cases h : c < 0
  · rw [if_pos (by simp [h])]
    omega
  · rw [if_neg (by simp [h])]
    omega

theorem signIf_eq (c : Int) :
    (if c < 0 then (['-'] : List Char) else []) =
    (if decide (c < 0) = true then ['-'] else []) := by
  by_cases h : c < 0 <;> simp [h]

theorem roundtripA2 (c e : Int) (he : e ≤ 0)
    (h6 : -6 < e + ((coeffDigs c.natAbs).length : Int))
    (hle : e + ((coeffDigs c.natAbs).length : Int) ≤ 0) :
    parsePD (decToChars ⟨c, e⟩) = some (.fin ⟨c, e⟩) := by
  have hLlt := coeffDigs_lt c.natAbs
  have hd : (e ≤ 0 ∧ -6 < e + ((coeffDigs c.natAbs).length : Int)) := ⟨he, h6⟩
  simp only [decToChars]
  rw [if_pos hd, if_pos hle, if_pos rfl, List.append_nil, signIf_eq]
  rw [show ('0' :: '.' :: (List.replicate (-(e + ((coeffDigs c.natAbs).length : Int))).toNat '0' ++
        mapD (coeffDigs c.natAbs)))
      = mapD [0] ++ '.' :: (mapD (List.replicate (-(e + ((coeffDigs c.natAbs).length : Int))).toNat 0 ++
        coeffDigs c.natAbs) ++ []) by
    simp [mapD, List.map_replicate, show digChar 0 = '0' from rfl]]
  rw [parsePD_dot (decide (c < 0)) [0] _ []
    (by intro x hx; simp at hx; omega)
    (by simp)
    (by
      intro x hx
      rcases List.mem_append.mp hx with h | h
      · rw [List.eq_of_mem_replicate h]; omega
      · exact hLlt x h)
    (fun ch cs h => nomatch h)]
  rw [parseTail_nil _ _ _ (by simp), finishNum_eq]
  have hofD : ofD ([0] ++ (List.replicate (-(e + ((coeffDigs c.natAbs).length : Int))).toNat 0 ++
      coeffDigs c.natAbs)) = c.natAbs := by
    rw [show ([0] ++ (List.replicate (-(e + ((coeffDigs c.natAbs).length : Int))).toNat 0 ++
        coeffDigs c.natAbs)) = 0 :: (List.replicate (-(e + ((coeffDigs c.natAbs).length : Int))).toNat 0 ++
        coeffDigs c.natAbs) from rfl,
      ofD_cons_zero, ofD_append_left_zeros, ofD_coeffDigs]
  rw [hofD, ofD_sign c]
  have hexp : (0 : Int) - (((List.replicate (-(e + ((coeffDigs c.natAbs).length : Int))).toNat 0 ++
      coeffDigs c.natAbs).length : Nat) : Int) = e := by
    rw [List.length_append, List.length_replicate]
    omega
  rw [hexp]

theorem roundtripA3 (c e : Int) (he : e ≤ 0)
    (h6 : -6 < e + ((coeffDigs c.natAbs).length : Int))
    (hpos : 0 < e + ((coeffDigs c.natAbs).length : Int))
    (hlen : ((coeffDigs c.natAbs).length : Int) ≤ e + ((coeffDigs c.natAbs).length : Int)) :
    parsePD (decToChars ⟨c, e⟩) = some (.fin ⟨c, e⟩) := by
  have hLlt := coeffDigs_lt c.natAbs
  have hLne := coeffDigs_ne_nil c.natAbs
  have he0 : e = 0 := by omega
  subst he0
  have hd : ((0 : Int) ≤ 0 ∧ -6 < (0 : Int) + ((coeffDigs c.natAbs).length : Int)) :=
    ⟨le_refl _, h6⟩
  simp only [decToChars]
  rw [if_pos hd, if_neg (not_le.mpr hpos), if_pos hlen, if_pos rfl, List.append_nil, signIf_eq]
  rw [show ((0 : Int) + ((coeffDigs c.natAbs).length : Int) -
      ((coeffDigs c.natAbs).length : Int)).toNat = 0 from by omega]
  rw [List.replicate_zero]
  rw [parsePD_nodot (decide (c < 0)) (coeffDigs c.natAbs) [] hLlt hLne
    (fun ch cs h => nomatch h)]
  rw [parseTail_nil _ _ _ hLne, finishNum_eq, List.append_nil, ofD_coeffDigs, ofD_sign c]
  norm_num

theorem roundtripA1 (c e : Int) (he : e ≤ 0)
    (h6 : -6 < e + ((coeffDigs c.natAbs).length : Int))
    (hpos : 0 < e + ((coeffDigs c.natAbs).length : Int))
    (hlt : e + ((coeffDigs c.natAbs).length : Int) < ((coeffDigs c.natAbs).length : Int)) :
    parsePD (decToChars ⟨c, e⟩) = some (.fin ⟨c, e⟩) := by
  have hLlt := coeffDigs_lt c.natAbs
  have hLne := coeffDigs_ne_nil c.natAbs
  have hlen1 : 1 ≤ (coeffDigs c.natAbs).length := List.length_pos.mpr hLne
  have hd : (e ≤ 0 ∧ -6 < e + ((coeffDigs c.natAbs).length : Int)) := ⟨he, h6⟩
  simp only [decToChars]
  rw [if_pos hd, if_neg (not_le.mpr hpos), if_neg (not_le.mpr hlt), if_pos rfl,
    List.append_nil, signIf_eq]
  rw [show mapD (List.drop (e + ((coeffDigs c.natAbs).length : Int)).toNat (coeffDigs c.natAbs)) =
      mapD (List.drop (e + ((coeffDigs c.natAbs).length : Int)).toNat (coeffDigs c.natAbs)) ++ []
    from (List.append_nil _).symm]
  rw [parsePD_dot (decide (c < 0)) _ _ []
    (fun x hx => hLlt x (List.take_subset _ _ hx))
    (by
      intro hnil
      have hlt' := congrArg List.length hnil
      simp only [List.length_take, List.length_nil] at hlt'
      omega)
    (fun x hx => hLlt x (List.drop_subset _ _ hx))
    (fun ch cs h => nomatch h)]
  rw [parseTail_nil _ _ _ (by
      intro hnil
      have hlt' := congrArg List.length hnil
      simp only [List.length_take, List.length_nil] at hlt'
      omega)]
  rw [finishNum_eq, List.take_append_drop, ofD_coeffDigs, ofD_sign c]
  rw [show (0 : Int) - ((List.drop (e + ((coeffDigs c.natAbs).length : Int)).toNat
      (coeffDigs c.natAbs)).length : Int) = e from by
    rw [List.length_drop]
    omega]

theorem roundtripB1 (c e : Int) (he : e ≤ 0)
    (hB : e + ((coeffDigs c.natAbs).length : Int) ≤ -6)
    (hlen : (coeffDigs c.natAbs).length ≤ 1) :
    parsePD (decToChars ⟨c, e⟩) = some (.fin ⟨c, e⟩) := by
  have hLlt := coeffDigs_lt c.natAbs
  have hLne := coeffDigs_ne_nil c.natAbs
  have hlen1 : 1 ≤ (coeffDigs c.natAbs).length := List.length_pos.mpr hLne
  have hL1 : (coeffDigs c.natAbs).length = 1 := by omega
  have hd : ¬(e ≤ 0 ∧ -6 < e + ((coeffDigs c.natAbs).length : Int)) := by
    intro h
    omega
  simp only [decToChars]
  rw [if_neg hd, if_neg (by norm_num : ¬((1 : Int) ≤ 0)),
    if_pos (by rw [hL1]; norm_num : ((coeffDigs c.natAbs).length : Int) ≤ 1),
    if_neg (by omega : ¬(e + ((coeffDigs c.natAbs).length : Int) = 1))]
  rw [show ((1 : Int) - ((coeffDigs c.natAbs).length : Int)).toNat = 0 from by omega,
    List.replicate_zero, List.append_nil, signIf_eq, List.append_assoc]
  rw [parsePD_nodot (decide (c < 0)) (coeffDigs c.natAbs) _ hLlt hLne
    (fun ch cs h => by
      injection h with h1 h2
      rw [← h1]
      exact ⟨by decide, by decide⟩)]
  rw [parseTail_negExp _ _ _ _ hLne (by omega), finishNum_eq, List.append_nil,
    ofD_coeffDigs, ofD_sign c]
  rw [show e + ((coeffDigs c.natAbs).length : Int) - 1 - ((List.length ([] : List Nat) : Nat) : Int)
      = e from by
    simp only [List.length_nil, Nat.cast_zero, sub_zero]
    omega]

theorem roundtripB2 (c e : Int) (he : e ≤ 0)
    (hB : e + ((coeffDigs c.natAbs).length : Int) ≤ -6)
    (hlen : 1 < (coeffDigs c.natAbs).length) :
    parsePD (decToChars ⟨c, e⟩) = some (.fin ⟨c, e⟩) := by
  have hLlt := coeffDigs_lt c.natAbs
  have hLne := coeffDigs_ne_nil c.natAbs
  have hd : ¬(e ≤ 0 ∧ -6 < e + ((coeffDigs c.natAbs).length : Int)) := by
    intro h
    omega
  simp only [decToChars]
  rw [if_neg hd, if_neg (by norm_num : ¬((1 : Int) ≤ 0)),
    if_neg (by omega : ¬(((coeffDigs c.natAbs).length : Int) ≤ 1)),
    if_neg (by omega : ¬(e + ((coeffDigs c.natAbs).length : Int) = 1))]
  rw [show ((1 : Int)).toNat = 1 from rfl, signIf_eq, List.append_assoc, List.append_assoc,
    List.cons_append]
  rw [parsePD_dot (decide (c < 0)) _ _ _
    (fun x hx => hLlt x (List.take_subset _ _ hx))
    (by
      intro hnil
      have hlt' := congrArg List.length hnil
      simp only [List.length_take, List.length_nil] at hlt'
      omega)
    (fun x hx => hLlt x (List.drop_subset _ _ hx))
    (fun ch cs h => by
      injection h with h1 h2
      rw [← h1]
      exact (by decide : isDig 'E' = false))]
  rw [parseTail_negExp _ _ _ _ (by
      intro hnil
      have hlt' := congrArg List.length hnil
      simp only [List.length_take, List.length_nil] at hlt'
      omega) (by omega)]
  rw [finishNum_eq, List.take_append_drop, ofD_coeffDigs, ofD_sign c]
  rw [show e + ((coeffDigs c.natAbs).length : Int) - 1 -
      ((List.drop 1 (coeffDigs c.natAbs)).length : Int) = e from by
    rw [List.length_drop]
    omega]

/-- Printing a finite decimal with non-positive exponent and parsing it back
is the identity — the heart of the parse/format round-trip. -/
theorem parsePD_decToChars (c e : Int) (he : e ≤ 0) :
    parsePD (decToChars ⟨c, e⟩) = some (.fin ⟨c, e⟩) := by
  have hlen1 : 1 ≤ (coeffDigs c.natAbs).length := List.length_pos.mpr (coeffDigs_ne_nil _)
  by_cases h6 : -6 < e + ((coeffDigs c.natAbs).length : Int)
  · by_cases hle : e + ((coeffDigs c.natAbs).length : Int) ≤ 0
    · exact roundtripA2 c e he h6 hle
    · by_cases hlt : e + ((coeffDigs c.natAbs).length : Int) < ((coeffDigs c.natAbs).length : Int)
      · exact roundtripA1 c e he h6 (by omega) hlt
      · exact roundtripA3 c e he h6 (by omega) (by omega)
  · by_cases hlen : (coeffDigs c.natAbs).length ≤ 1
    · exact roundtripB1 c e he (by omega) hlen
    · exact roundtripB2 c e he (by omega) (by omega)

theorem mem_ite_list {p : Prop} [Decidable p] {A B : List Char} {ch : Char}
    (h : ch ∈ (if p then A else B)) : ch ∈ A ∨ ch ∈ B := by
  by_cases hp : p
  · rw [if_pos hp] at h
    exact Or.inl h
  · rw [if_neg hp] at h
    exact Or.inr h

theorem okCh_digits (D : List Nat) (hD : ∀ d ∈ D, d < 10) :
    ∀ ch ∈ mapD D, isWs ch = false ∧ ch ≠ '_' := by
  intro ch hch
  rw [mapD] at hch
  obtain ⟨d, hd, rfl⟩ := List.mem_map.mp hch
  have hd10 := hD d hd
  exact ⟨(digChar_eq_char d hd10).2.2.1, (digChar_eq_char d hd10).2.2.2.1⟩

theorem okCh_intSignedChars (k : Int) :
    ∀ ch ∈ intSignedChars k, isWs ch = false ∧ ch ≠ '_' := by
  intro ch hch
  unfold intSignedChars at hch
  rcases List.mem_append.mp hch with h | h
  · rcases mem_ite_list h with h | h <;> simp only [List.mem_singleton] at h <;> subst h <;>
      exact ⟨by decide, by decide⟩
  · exact okCh_digits _ (coeffDigs_lt _) ch h

theorem decToChars_ok (d : Dec) : ∀ ch ∈ decToChars d, isWs ch = false ∧ ch ≠ '_' := by
  intro ch hch
  simp only [decToChars] at hch
  rcases List.mem_append.mp hch with h | h
  · rcases List.mem_append.mp h with h | h
    · rcases mem_ite_list h with h | h
      · simp only [List.mem_singleton] at h
        subst h
        exact ⟨by decide, by decide⟩
      · exact absurd h (List.not_mem_nil ch)
    · rcases mem_ite_list h with h | h
      · simp only [List.mem_cons] at h
        rcases h with h | h | h
        · subst h; exact ⟨by decide, by decide⟩
        · subst h; exact ⟨by decide, by decide⟩
        · rcases List.mem_append.mp h with h | h
          · rw [List.eq_of_mem_replicate h]
            exact ⟨by decide, by decide⟩
          · exact okCh_digits _ (coeffDigs_lt _) ch h
      · rcases mem_ite_list h with h | h
        · rcases List.mem_append.mp h with h | h
          · exact okCh_digits _ (coeffDigs_lt _) ch h
          · rw [List.eq_of_mem_replicate h]
            exact ⟨by decide, by decide⟩
        · rcases List.mem_append.mp h with h | h
          · exact okCh_digits _ (fun x hx => coeffDigs_lt _ x (List.take_subset _ _ hx)) ch h
          · simp only [List.mem_cons] at h
            rcases h with h | h
            · subst h; exact ⟨by decide, by decide⟩
            · exact okCh_digits _ (fun x hx => coeffDigs_lt _ x (List.drop_subset _ _ hx)) ch h
  · rcases mem_ite_list h with h | h
    · exact absurd h (List.not_mem_nil ch)
    · simp only [List.mem_cons] at h
      rcases h with h | h
      · subst h; exact ⟨by decide, by decide⟩
      · exact okCh_intSignedChars _ ch h

theorem decToChars_ne_nil (d : Dec) : decToChars d ≠ [] := by
  simp only [decToChars]
  intro h
  rcases List.append_eq_nil.mp h with ⟨h1, h2⟩
  rcases List.append_eq_nil.mp h1 with ⟨h3, h4⟩
  set dotE := (if d.e ≤ 0 ∧ -6 < d.e + ((coeffDigs d.c.natAbs).length : Int)
    then d.e + ((coeffDigs d.c.natAbs).length : Int) else 1) with hdot
  by_cases hc1 : dotE ≤ 0
  · rw [if_pos hc1] at h4
    exact List.noConfusion h4
  · rw [if_neg hc1] at h4
    by_cases hc2 : ((coeffDigs d.c.natAbs).length : Int) ≤ dotE
    · rw [if_pos hc2] at h4
      rcases List.append_eq_nil.mp h4 with ⟨h5, h6⟩
      rw [mapD] at h5
      exact coeffDigs_ne_nil _ (List.map_eq_nil.mp h5)
    · rw [if_neg hc2] at h4
      rcases List.append_eq_nil.mp h4 with ⟨h5, h6⟩
      exact List.noConfusion h6

theorem pyStrip_concat (t1 t2 : List Char) (h1ne : t1 ≠ []) (h2ne : t2 ≠ [])
    (h1 : ∀ ch ∈ t1, isWs ch = false) (h2 : ∀ ch ∈ t2, isWs ch = false) :
    pyStrip (t1 ++ ' ' :: t2) = t1 ++ ' ' :: t2 := by
  unfold pyStrip
  have hdw : (t1 ++ ' ' :: t2).dropWhile isWs = t1 ++ ' ' :: t2 := by
    cases t1 with
    | nil => exact absurd rfl h1ne
    | cons a l' =>
      rw [List.cons_append]
      simp [List.dropWhile_cons, h1 a (List.mem_cons_self _ _)]
  rw [hdw, List.reverse_append, List.reverse_cons]
  have hdw2 : ((t2.reverse ++ [' ']) ++ t1.reverse).dropWhile isWs =
      (t2.reverse ++ [' ']) ++ t1.reverse := by
    cases hrv : t2.reverse with
    | nil => exact absurd (List.reverse_eq_nil_iff.mp hrv) h2ne
    | cons b l' =>
      have hb : isWs b = false :=
        h2 b (List.mem_reverse.mp (hrv ▸ List.mem_cons_self b l'))
      rw [List.cons_append, List.cons_append]
      simp [List.dropWhile_cons, hb]
  rw [hdw2, ← List.reverse_cons, ← List.reverse_append, List.reverse_reverse]

theorem splitWsAux_token (t : List Char) (ht : ∀ ch ∈ t, isWs ch = false) :
    ∀ (l acc : List Char), splitWsAux (t ++ l) acc = splitWsAux l (t.reverse ++ acc) := by
  induction t with
  | nil =>
    intro l acc
    simp
  | cons a t' ih =>
    intro l acc
    have ha : isWs a = false := ht a (List.mem_cons_self _ _)
    rw [List.cons_append]
    simp only [splitWsAux, ha, Bool.false_eq_true, if_false]
    rw [ih (fun ch hch => ht ch (List.mem_cons_of_mem a hch)) l (a :: acc)]
    congr 1
    simp

theorem pySplit_pair (t1 t2 : List Char) (h1ne : t1 ≠ []) (h2ne : t2 ≠ [])
    (h1 : ∀ ch ∈ t1, isWs ch = false) (h2 : ∀ ch ∈ t2, isWs ch = false) :
    pySplit (t1 ++ ' ' :: t2) = [t1, t2] := by
  unfold pySplit
  rw [splitWsAux_token t1 h1 (' ' :: t2) [], List.append_nil]
  have hre : t1.reverse.isEmpty = false := by
    simp [List.isEmpty_iff, List.reverse_eq_nil_iff, h1ne]
  simp only [splitWsAux, show isWs ' ' = true from rfl, if_true, hre, Bool.false_eq_true,
    if_false, List.reverse_reverse]
  have h0 : splitWsAux (t2 ++ []) [] = splitWsAux [] (t2.reverse ++ []) :=
    splitWsAux_token t2 h2 [] []
  rw [List.append_nil, List.append_nil] at h0
  rw [h0]
  have hre2 : t2.reverse.isEmpty = false := by
    simp [List.isEmpty_iff, List.reverse_eq_nil_iff, h2ne]
  simp [splitWsAux, hre2]

theorem decOfChars_clean (l : List Char) (h1 : ∀ ch ∈ l, isWs ch = false)
    (h2 : ∀ ch ∈ l, ch ≠ '_') : decOfChars l = parsePD l := by
  unfold decOfChars
  have hstrip : l.dropWhile isWs = l := by
    cases l with
    | nil => rfl
    | cons a l' => simp [List.dropWhile_cons, h1 a (List.mem_cons_self _ _)]
  have hstrip2 : pyStrip l = l := by
    unfold pyStrip
    rw [hstrip]
    have : l.reverse.dropWhile isWs = l.reverse := by
      cases hr : l.reverse with
      | nil => rfl
      | cons a l' =>
        have : isWs a = false := h1 a (List.mem_reverse.mp (hr ▸ List.mem_cons_self a l'))
        simp [List.dropWhile_cons, this]
    rw [this, List.reverse_reverse]
  rw [hstrip2, List.filter_eq_self.mpr (fun a ha => by simp [h2 a ha])]

theorem registry_clean :
    ∀ cur ∈ registry, cur.code.data ≠ [] ∧ (∀ ch ∈ cur.code.data, isWs ch = false) := by
  decide

theorem parsePD_decToChars_d (d : Dec) (he : d.e ≤ 0) :
    parsePD (decToChars d) = some (.fin d) := by
  obtain ⟨c, e⟩ := d
  exact parsePD_decToChars c e he

/-- C7 (amended): for every existing amount whose stored value lies within
`[MIN_VALUE, MAX_VALUE]` and whose currency is known to the parser's
lookup, parsing the formatted text yields the amount back:
`from_str(str(m)) == m`, the format being exactly
`"<value> <currency_code>"` with the value printed by the decimal type
(trailing zeros preserved by the stored exponent). -/
theorem claim_C7_roundtrip :
    ∀ m : Money, m.value.e = -(m.currency.precision : Int) →
      digLen m.value.c.natAbs ≤ 28 → inRangeB m.value = true →
      resolveCur m.currency.code = some m.currency →
      fromStr (moneyStr m) = .ok m := by
  intro m he hd hr hres
  have hmem : m.currency ∈ registry := List.mem_of_find?_eq_some hres
  have hcode := registry_clean m.currency hmem
  have hvok := decToChars_ok m.value
  have hvne := decToChars_ne_nil m.value
  have he0 : m.value.e ≤ 0 := by
    rw [he]
    omega
  have hstrip : pyStrip (decToChars m.value ++ ' ' :: m.currency.code.data) =
      decToChars m.value ++ ' ' :: m.currency.code.data :=
    pyStrip_concat _ _ hvne hcode.1 (fun ch hch => (hvok ch hch).1) hcode.2
  have hsplit : pySplit (decToChars m.value ++ ' ' :: m.currency.code.data) =
      [decToChars m.value, m.currency.code.data] :=
    pySplit_pair _ _ hvne hcode.1 (fun ch hch => (hvok ch hch).1) hcode.2
  have hdec : decOfChars (decToChars m.value) = some (.fin m.value) := by
    rw [decOfChars_clean _ (fun ch hch => (hvok ch hch).1) (fun ch hch => (hvok ch hch).2)]
    exact parsePD_decToChars_d m.value he0
  have hmk : String.mk m.currency.code.data = m.currency.code := rfl
  obtain ⟨a, t1', ht1⟩ : ∃ a t1', decToChars m.value = a :: t1' := by
    cases hne : decToChars m.value with
    | nil => exact absurd hne hvne
    | cons x xs => exact ⟨x, xs, rfl⟩
  show fromStr (String.mk (decToChars m.value ++ ' ' :: m.currency.code.data)) = .ok m
  simp only [fromStr]
  rw [hstrip, ht1, List.cons_append]
  simp only
  rw [← List.cons_append, ← ht1, hsplit]
  simp only
  rw [hdec]
  simp only
  rw [hmk, hres]
  simp only
  rw [constructPD_wf_ok m.value m.currency he hd hr]

theorem constructCore_err (d : Dec) (p : Nat) (e : Err) (h : constructCore d p = .error e) :
    e = .rangeMax ∨ e = .rangeMin ∨ e = .invalidOp := by
  unfold constructCore at h
  split_ifs at h
  · exact Or.inl (by injection h with h; exact h.symm)
  · exact Or.inr (Or.inl (by injection h with h; exact h.symm))
  · rcases pyQuantize_cases d p with ⟨q, hq⟩ | hq
    · rw [hq] at h
      exact absurd h (by simp)
    · rw [hq] at h
      exact Or.inr (Or.inr (by injection h with h; exact h.symm))

theorem constructPD_ne_formatErr (v : PDec) (cur : Currency) :
    constructPD v cur ≠ .error .formatErr := by
  cases v with
  | nan => simp [constructPD]
  | inf b => cases b <;> simp [constructPD]
  | fin d =>
    simp only [constructPD]
    intro h
    cases hcc : constructCore d cur.precision with
    | ok q =>
      rw [hcc] at h
      simp at h
    | error err =>
      rw [hcc] at h
      simp only [Except.error.injEq] at h
      subst h
      rcases constructCore_err d cur.precision _ hcc with h | h | h <;> exact Err.noConfusion h

theorem fromStr_eq (s : String) :
    fromStr s = (match pyStrip s.data with
      | [] => .error .formatErr
      | l => match pySplit l with
        | [v, c] => match decOfChars v with
          | none => .error .formatErr
          | some pd => match resolveCur (String.mk c) with
            | none => .error .formatErr
            | some cur => constructPD pd cur
        | _ => .error .formatErr) := rfl

/-- C9 (amended): `from_str` trims its input and fails with the
format-`ValueError` exactly when the trimmed input is empty, does not
split into exactly two whitespace tokens, the first token is not accepted
by the decimal literal parser, or the second token does not resolve to a
known currency; and whenever both tokens are accepted, the result is
exactly the construction of the parsed value with the resolved currency,
so the range and precision rules apply identically to parsed values. -/
theorem claim_C9_fromstr :
    (∀ s : String,
      fromStr s = .error .formatErr ↔
        (pyStrip s.data = [] ∨
         (¬ ∃ v c2, pySplit (pyStrip s.data) = [v, c2]) ∨
         (∃ v c2, pySplit (pyStrip s.data) = [v, c2] ∧ decOfChars v = none) ∨
         (∃ v c2 pd, pySplit (pyStrip s.data) = [v, c2] ∧ decOfChars v = some pd ∧
           resolveCur (String.mk c2) = none))) ∧
    (∀ (s : String) (v c2 : List Char) (pd : PDec) (cur : Currency),
      pySplit (pyStrip s.data) = [v, c2] → decOfChars v = some pd →
      resolveCur (String.mk c2) = some cur → fromStr s = constructPD pd cur) := by
  have key : ∀ (s : String) (a : Char) (l' : List Char), pyStrip s.data = a :: l' →
      ∀ (v c2 : List Char) (pd : PDec) (cur : Currency),
      pySplit (a :: l') = [v, c2] → decOfChars v = some pd →
      resolveCur (String.mk c2) = some cur → fromStr s = constructPD pd cur := by
    intro s a l' hstrip v c2 pd cur hsp hdc hrc
    rw [fromStr_eq, hstrip]
    simp only
    rw [hsp]
    simp only
    rw [hdc]
    simp only
    rw [hrc]
  constructor
  · intro s
    cases hstrip : pyStrip s.data with
    | nil =>
      have hF : fromStr s = .error .formatErr := by
        rw [fromStr_eq, hstrip]
      exact ⟨fun _ => Or.inl rfl, fun _ => hF⟩
    | cons a l' =>
      rcases hsp : pySplit (a :: l') with - | ⟨v, - | ⟨c2, - | ⟨x3, rest⟩⟩⟩
      · have hF : fromStr s = .error .formatErr := by
          rw [fromStr_eq, hstrip]
          simp only
          rw [hsp]
        refine ⟨fun _ => Or.inr (Or.inl ?_), fun _ => hF⟩
        rintro ⟨vv, cc, hvv⟩
        exact List.noConfusion hvv
      · have hF : fromStr s = .error .formatErr := by
          rw [fromStr_eq, hstrip]
          simp only
          rw [hsp]
        refine ⟨fun _ => Or.inr (Or.inl ?_), fun _ => hF⟩
        rintro ⟨vv, cc, hvv⟩
        simp at hvv
      · cases hdc : decOfChars v with
        | none =>
          have hF : fromStr s = .error .formatErr := by
            rw [fromStr_eq, hstrip]
            simp only
            rw [hsp]
            simp only
            rw [hdc]
          exact ⟨fun _ => Or.inr (Or.inr (Or.inl ⟨v, c2, rfl, hdc⟩)), fun _ => hF⟩
        | some pd =>
          cases hrc : resolveCur (String.mk c2) with
          | none =>
            have hF : fromStr s = .error .formatErr := by
              rw [fromStr_eq, hstrip]
              simp only
              rw [hsp]
              simp only
              rw [hdc]
              simp only
              rw [hrc]
            exact ⟨fun _ => Or.inr (Or.inr (Or.inr ⟨v, c2, pd, rfl, hdc, hrc⟩)), fun _ => hF⟩
          | some cur =>
            have hF : fromStr s = constructPD pd cur :=
              key s a l' hstrip v c2 pd cur hsp hdc hrc
            constructor
            · intro h
              rw [hF] at h
              exact absurd h (constructPD_ne_formatErr pd cur)
            · intro h
              exfalso
              rcases h with h | h | h | h
              · exact List.noConfusion h
              · exact h ⟨v, c2, rfl⟩
              · obtain ⟨vv, cc, h1, h2⟩ := h
                simp only [List.cons.injEq, and_true] at h1
                obtain ⟨h1a, h1b⟩ := h1
                rw [← h1a, hdc] at h2
                exact Option.noConfusion h2
              · obtain ⟨vv, cc, pd', h1, h2, h3⟩ := h
                simp only [List.cons.injEq, and_true] at h1
                obtain ⟨h1a, h1b⟩ := h1
                rw [← h1b, hrc] at h3
                exact Option.noConfusion h3
      · have hF : fromStr s = .error .formatErr := by
          rw [fromStr_eq, hstrip]
          simp only
          rw [hsp]
        refine ⟨fun _ => Or.inr (Or.inl ?_), fun _ => hF⟩
        rintro ⟨vv, cc, hvv⟩
        simp at hvv
  · intro s v c2 pd cur hsp hdc hrc
    cases hstrip : pyStrip s.data with
    | nil =>
      rw [hstrip] at hsp
      simp [pySplit, splitWsAux] at hsp
    | cons a l' =>
      rw [hstrip] at hsp
      exact key s a l' hstrip v c2 pd cur hsp hdc hrc

/-- C9 counterexample: `"10.50 ZZZ"` — trimmed nonempty, exactly two
tokens, first token a valid decimal — still fails with the format
`ValueError` because the currency code is unknown, a case the claim's
"exactly when" list omits. -/
theorem claim_C9_cex :
    fromStr "10.50 ZZZ" = .error .formatErr ∧
    pyStrip "10.50 ZZZ".data ≠ [] ∧
    pySplit (pyStrip "10.50 ZZZ".data) = [['1', '0', '.', '5', '0'], ['Z', 'Z', 'Z']] ∧
    decOfChars ['1', '0', '.', '5', '0'] = some (.fin ⟨1050, -2⟩) :=
  ⟨rfl, by decide, rfl, rfl⟩

/-- C9 witness: the empty string fails with the format error, and
`"1.50 USD"` parses by feeding `1.50` and `USD` through construction. -/
theorem claim_C9_witness :
    fromStr "" = .error .formatErr ∧
    fromStr "1.50 USD" = constructPD (.fin ⟨150, -2⟩) usd :=
  ⟨(claim_C9_fromstr.1 "").mpr (Or.inl rfl),
   claim_C9_fromstr.2 "1.50 USD" ['1', '.', '5', '0'] ['U', 'S', 'D']
     (.fin ⟨150, -2⟩) usd rfl rfl rfl⟩

/-- C7 counterexample: `Money(MAX_VALUE, USD)` succeeds and stores
`1000000000000.00 USD`; formatting it and parsing the text back fails with
the `RangeKind` maximum error instead of returning an equal amount. -/
theorem claim_C7_cex :
    constructVal (.dec (.fin maxValue)) usd = .ok mBig ∧
    moneyStr mBig = "1000000000000.00 USD" ∧
    fromStr (moneyStr mBig) = .error .rangeMax :=
  ⟨rfl, rfl, rfl⟩

/-- C7 witness: the amount `1234.56 USD` round-trips through its text. -/
theorem claim_C7_witness :
    fromStr (moneyStr ⟨⟨123456, -2⟩, usd⟩) = .ok ⟨⟨123456, -2⟩, usd⟩ :=
  claim_C7_roundtrip ⟨⟨123456, -2⟩, usd⟩ (by decide) (by decide) (by decide) (by decide)
